import Mathlib

/-!
# HackCompiler: a two-pass assembler for the Hack machine language

A shallow embedding of `src/compiler.hpp` and theorems about it.

Modelling conventions.

* A `char` is a Lean `Char`; a `char*` is the list of bytes found in memory
  from the pointer on (`List Char`).  A C string ends at its first NUL byte;
  bytes that lie behind the end of the list read as NUL (`peek`).  The line
  handed to the functions is what `fgets` has read; behind its terminating
  NUL the buffer holds stale bytes.  The code reads such a byte only after
  it has stored a NUL in the three-character field it is filling (a field
  that holds a NUL is equal to no key of the two tables), or it copies the
  byte behind a NUL of `label_name`, where the `std::string` has ended, so
  that the result does not depend on the stale bytes.
* A store outside an array is undefined behaviour in C++ and a library
  call without a defined result leaves the model with `Error.undefined`;
  the exception thrown by `std::map::at` is `Error.out_of_range`.  Nothing
  in the program catches it, so the run ends there.
* `uint16_t` values are natural numbers reduced modulo `2^16` where the
  code narrows or increments them.
-/

namespace HackCompiler

/-! ## Memory and C strings -/

/-- The NUL byte that ends a C string. -/
abbrev NUL : Char := Char.ofNat 0

/-- Ways in which a run of the program ends without a result. -/
inductive Error where
  | out_of_range
  | undefined
  deriving DecidableEq, Repr

deriving instance DecidableEq for Except

/-- The byte `p[i]`. -/
def peek (p : List Char) (i : Nat) : Char := p.getD i NUL

/-- Model of `strchr(s, c)` for `c` other than NUL: the offset of the first
`c` in the C string at `s`, if there is one. -/
def strchr : List Char → Char → Option Nat
  | [], _ => none
  | x :: xs, c =>
    if x = c then some 0
    else if x = NUL then none
    else (strchr xs c).map (· + 1)

/-- Model of `strncmp(s1, s2, n)`: the bytes are compared as unsigned values,
at most `n` of them, and not beyond a NUL. -/
def strncmp : List Char → List Char → Nat → Int
  | _, _, 0 => 0
  | s1, s2, n + 1 =>
    let c1 := peek s1 0
    let c2 := peek s2 0
    if c1 ≠ c2 then (c1.toNat : Int) - (c2.toNat : Int)
    else if c1 = NUL then 0
    else strncmp s1.tail s2.tail n

/-- The comparator `string_comparison<NCharacters>`. -/
def string_comparison (NCharacters : Nat) (str1 str2 : List Char) : Bool :=
  decide (strncmp str1 str2 NCharacters < 0)

/-! ## `std::map` with a comparator -/

/-- Two keys are equivalent for a `std::map` when neither is less than the
other. -/
def map_equiv (lt : List Char → List Char → Bool) (a b : List Char) : Bool :=
  !lt a b && !lt b a

/-- Model of `std::map::insert`: an entry whose key is equivalent to a key
already present is dropped. -/
def map_insert (lt : List Char → List Char → Bool)
    (m : List (List Char × List Char)) (kv : List Char × List Char) :
    List (List Char × List Char) :=
  if m.any (fun e => map_equiv lt e.1 kv.1) then m else m ++ [kv]

/-- Construction of a `std::map` from an initializer list. -/
def map_of (lt : List Char → List Char → Bool)
    (entries : List (List Char × List Char)) : List (List Char × List Char) :=
  entries.foldl (map_insert lt) []

/-- Model of `std::map::at`: the value of the entry equivalent to `k`, or the
exception `std::out_of_range`. -/
def map_at (lt : List Char → List Char → Bool)
    (m : List (List Char × List Char)) (k : List Char) :
    Except Error (List Char) :=
  match m.find? (fun e => map_equiv lt e.1 k) with
  | some e => .ok e.2
  | none => .error .out_of_range

/-! ## `split_c_instruction` -/

/-- The struct `c_instruction_components` with its default member values. -/
structure c_instruction_components where
  am_decision : Char := '0'
  destination : List Char := [' ', ' ', ' ']
  value : List Char := [' ', ' ', ' ']
  jump : List Char := [' ', ' ', ' ']
  deriving DecidableEq, Repr

/-- The loop of lines 90-97: up to three bytes behind the semicolon are copied
to `jump`; `q` is `semicolon_ptr + 1`, `n` the iterations left. -/
def jump_loop (q : List Char) : Nat → Nat → List Char → List Char
  | 0, _, jump => jump
  | n + 1, i, jump =>
    let c := peek q i
    if c = ' ' then jump
    else jump_loop q n (i + 1) (jump.set i c)

/-- The loop of lines 103-116: up to three bytes behind the equal sign are
copied to `value`, an `M` is recorded in `am_decision` and stored as `A`;
`q` is `equal_ptr + 1`. -/
def value_loop_eq (q : List Char) : Nat → Nat → Char × List Char → Char × List Char
  | 0, _, st => st
  | n + 1, i, (am, value) =>
    let c := peek q i
    if c = ' ' ∨ c = NUL ∨ c = '\r' ∨ c = '\n' then (am, value)
    else if c = 'M' then value_loop_eq q n (i + 1) ('1', value.set i 'A')
    else value_loop_eq q n (i + 1) (am, value.set i c)

/-- The loop of lines 119-120: the `len` bytes in front of the equal sign are
copied to `destination[i]`.  The array has three elements; a store with
`i ≥ 3` is outside it. -/
def destination_loop (p : List Char) (len : Nat) :
    Nat → Nat → List Char → Except Error (List Char)
  | 0, _, destination => .ok destination
  | n + 1, i, destination =>
    if i < len then
      if i < 3 then destination_loop p len n (i + 1) (destination.set i (peek p i))
      else .error .undefined
    else .ok destination

/-- The loop of lines 123-137 (no equal sign): the first three bytes of the
instruction up to a semicolon are copied to `value`. -/
def value_loop_noeq (p : List Char) : Nat → Nat → Char × List Char → Char × List Char
  | 0, _, st => st
  | n + 1, i, (am, value) =>
    let c := peek p i
    if c = ';' then (am, value)
    else if c = 'M' then value_loop_noeq p n (i + 1) ('1', value.set i 'A')
    else value_loop_noeq p n (i + 1) (am, value.set i c)

/-- Model of `split_c_instruction`. -/
def split_c_instruction (instruction : List Char) :
    Except Error c_instruction_components :=
  let components : c_instruction_components := {}
  let jump :=
    match strchr instruction ';' with
    | some s => jump_loop (instruction.drop (s + 1)) 3 0 components.jump
    | none => components.jump
  match strchr instruction '=' with
  | some e =>
    let av := value_loop_eq (instruction.drop (e + 1)) 3 0
      (components.am_decision, components.value)
    match destination_loop instruction e (e + 1) 0 components.destination with
    | .ok destination =>
      .ok { am_decision := av.1, destination := destination, value := av.2, jump := jump }
    | .error err => .error err
  | none =>
    let av := value_loop_noeq instruction 3 0 (components.am_decision, components.value)
    .ok { am_decision := av.1, destination := components.destination, value := av.2,
          jump := jump }

/-! ## `generate_a_type` and `generate_c_type` -/

/-- Model of `std::bitset<w>(n).to_string()`: the low `w` bits of `n`, the
most significant first. -/
def bitset_to_string : Nat → Nat → List Char
  | 0, _ => []
  | w + 1, n => (if n / 2 ^ w % 2 = 1 then '1' else '0') :: bitset_to_string w n

/-- Model of `generate_a_type`: the member `unused` and the 15 bytes of
`value`. -/
def generate_a_type (n : Nat) : List Char :=
  '0' :: bitset_to_string 15 n

/-- The initializer list of the map `alu_inputs`. -/
def alu_inputs_init : List (List Char × List Char) :=
  [ (['0', ' ', ' '], ['1', '0', '1', '0', '1', '0']),
    (['1', ' ', ' '], ['1', '1', '1', '1', '1', '1']),
    (['-', '1', ' '], ['1', '1', '1', '0', '1', '0']),
    (['D', ' ', ' '], ['0', '0', '1', '1', '0', '0']),
    (['A', ' ', ' '], ['1', '1', '0', '0', '0', '0']),
    (['!', 'D', ' '], ['0', '0', '1', '1', '0', '1']),
    (['!', 'A', ' '], ['1', '1', '0', '0', '0', '1']),
    (['-', 'D', ' '], ['0', '0', '1', '1', '1', '1']),
    (['-', 'A', ' '], ['1', '1', '0', '0', '1', '1']),
    (['D', '+', '1'], ['0', '1', '1', '1', '1', '1']),
    (['A', '+', '1'], ['1', '1', '0', '1', '1', '1']),
    (['D', '-', '1'], ['0', '0', '1', '1', '1', '0']),
    (['A', '-', '1'], ['1', '1', '0', '0', '1', '0']),
    (['D', '+', 'A'], ['0', '0', '0', '0', '1', '0']),
    (['D', '-', 'A'], ['0', '1', '0', '0', '1', '1']),
    (['A', '-', 'D'], ['0', '0', '0', '1', '1', '1']),
    (['D', '&', 'A'], ['0', '0', '0', '0', '0', '0']),
    (['D', '|', 'A'], ['0', '1', '0', '1', '0', '1']) ]

/-- The map `alu_inputs`. -/
def alu_inputs : List (List Char × List Char) :=
  map_of (string_comparison 3) alu_inputs_init

/-- The initializer list of the map `jump_inputs`. -/
def jump_inputs_init : List (List Char × List Char) :=
  [ ([' ', ' ', ' '], ['0', '0', '0']),
    (['J', 'G', 'T'], ['0', '0', '1']),
    (['J', 'E', 'Q'], ['0', '1', '0']),
    (['J', 'G', 'E'], ['0', '1', '1']),
    (['J', 'L', 'T'], ['1', '0', '0']),
    (['J', 'N', 'E'], ['1', '0', '1']),
    (['J', 'L', 'E'], ['1', '1', '0']),
    (['J', 'M', 'P'], ['1', '1', '1']) ]

/-- The map `jump_inputs`. -/
def jump_inputs : List (List Char × List Char) :=
  map_of (string_comparison 3) jump_inputs_init

/-- The loop of lines 197-206 over `dest_input[0..2]`. -/
def dest_loop (dest_input : List Char) : Nat → Nat → List Char → List Char
  | 0, _, dest => dest
  | n + 1, i, dest =>
    if peek dest_input i = 'A' then dest_loop dest_input n (i + 1) (dest.set 0 '1')
    else if peek dest_input i = 'D' then dest_loop dest_input n (i + 1) (dest.set 1 '1')
    else if peek dest_input i = 'M' then dest_loop dest_input n (i + 1) (dest.set 2 '1')
    else dest

/-- Model of `generate_c_type`; the result is the 16 bytes of the struct
`c_type_instruction`: `unused`, `am`, `comp`, `dest`, `jump`. -/
def generate_c_type (am_decision : Char) (alu_input dest_input jump_input : List Char) :
    Except Error (List Char) :=
  match map_at (string_comparison 3) alu_inputs alu_input with
  | .error err => .error err
  | .ok comp =>
    let dest := dest_loop dest_input 3 0 ['0', '0', '0']
    match map_at (string_comparison 3) jump_inputs jump_input with
    | .error err => .error err
    | .ok jump => .ok (['1', '1', '1'] ++ [am_decision] ++ comp.take 6 ++ dest ++ jump.take 3)

/-- The compute branch of `parse_file` (lines 290-293): the instruction is
split and the components are encoded. -/
def encode_c_instruction (instruction : List Char) : Except Error (List Char) :=
  match split_c_instruction instruction with
  | .error err => .error err
  | .ok components =>
    generate_c_type components.am_decision components.value components.destination
      components.jump

/-! ## The globals `variable_map` and `variable_count` -/

/-- Model of `std::map::find` on `variable_map`: the address bound to a name. -/
def map_find : List (List Char × Nat) → List Char → Option Nat
  | [], _ => none
  | (k, v) :: m, name => if k = name then some v else map_find m name

/-- Model of `std::map::insert_or_assign` and of `variable_map[name] = v`: the
name is bound to `v`, whether it was bound before or not. -/
def insert_or_assign : List (List Char × Nat) → List Char → Nat → List (List Char × Nat)
  | [], name, v => [(name, v)]
  | (k, w) :: m, name, v =>
    if k = name then (k, v) :: m else (k, w) :: insert_or_assign m name v

/-- The two globals of the program. -/
structure Globals where
  variable_map : List (List Char × Nat)
  variable_count : Nat
  deriving DecidableEq, Repr

/-- The initializer of `variable_map`. -/
def variable_map_init : List (List Char × Nat) :=
  [ (['S', 'P'], 0),
    (['L', 'C', 'L'], 1),
    (['A', 'R', 'G'], 2),
    (['T', 'H', 'I', 'S'], 3),
    (['T', 'H', 'A', 'T'], 4),
    (['R', '0'], 0),
    (['R', '1'], 1),
    (['R', '2'], 2),
    (['R', '3'], 3),
    (['R', '4'], 4),
    (['R', '5'], 5),
    (['R', '6'], 6),
    (['R', '7'], 7),
    (['R', '8'], 8),
    (['R', '9'], 9),
    (['R', '1', '0'], 10),
    (['R', '1', '1'], 11),
    (['R', '1', '2'], 12),
    (['R', '1', '3'], 13),
    (['R', '1', '4'], 14),
    (['R', '1', '5'], 15),
    (['S', 'C', 'R', 'E', 'E', 'N'], 16384),
    (['K', 'B', 'D'], 24576) ]

/-- The globals when the program starts. -/
def globals_init : Globals :=
  { variable_map := variable_map_init, variable_count := 0 }

/-! ## The library calls of `parse_file` -/

/-- The C string at `s`: the bytes in front of the first NUL. -/
def c_str (s : List Char) : List Char := s.takeWhile (· ≠ NUL)

/-- Model of `isspace` in the C locale. -/
def isspace (c : Char) : Bool :=
  c = ' ' || c = '\t' || c = '\n' || c = Char.ofNat 11 || c = Char.ofNat 12 || c = '\r'

/-- The value of `c` as a digit of the given base, if it is one. -/
def digit_value (base : Nat) (c : Char) : Option Nat :=
  let v :=
    if '0' ≤ c ∧ c ≤ '9' then some (c.toNat - 48)
    else if 'a' ≤ c ∧ c ≤ 'f' then some (c.toNat - 87)
    else if 'A' ≤ c ∧ c ≤ 'F' then some (c.toNat - 55)
    else none
  match v with
  | some d => if d < base then some d else none
  | none => none

/-- The value of the longest run of digits of the given base at the front of
`s`, continuing from `acc`. -/
def scan_digits (base : Nat) : List Char → Nat → Nat
  | [], acc => acc
  | c :: s, acc =>
    match digit_value base c with
    | some d => scan_digits base s (acc * base + d)
    | none => acc

/-- Model of the conversion `%i` of `sscanf_s` into an `int`, for input that
starts with a digit: a numeral with the prefix `0x` or `0X` is hexadecimal,
another one that starts with `0` is octal, the others are decimal.  A prefix
`0x` without a digit behind it and a value that an `int` cannot hold have no
defined result. -/
def scan_i (s : List Char) : Except Error Nat :=
  let r : Option Nat :=
    match s with
    | '0' :: x :: t =>
      if x = 'x' ∨ x = 'X' then
        if (digit_value 16 (peek t 0)).isSome then some (scan_digits 16 t 0) else none
      else some (scan_digits 8 s 0)
    | '0' :: [] => some 0
    | _ => some (scan_digits 10 s 0)
  match r with
  | some v => if v < 2 ^ 31 then .ok v else .error .undefined
  | none => .error .undefined

/-- Model of the conversion `%s` of `sscanf_s` into `var_name` with the size
64: white space is skipped and the bytes up to the next white space are
stored.  When there is no such byte, or more than 63 of them, nothing defined
is stored. -/
def scan_s (s : List Char) : Except Error (List Char) :=
  let token := ((c_str s).dropWhile isspace).takeWhile (fun c => !isspace c)
  if token = [] ∨ 63 < token.length then .error .undefined else .ok token

/-- Model of the calls of `fgets(line_buffer, size, f)` until the end of the
file: each call takes the bytes up to and including the next newline, and
at most `size - 1` of them; `cur` holds the bytes taken by the current call. -/
def read_lines_aux (size : Nat) : List Char → List Char → List (List Char)
  | [], cur => if cur = [] then [] else [cur]
  | c :: file, cur =>
    if c = '\n' ∨ cur.length + 2 = size then (cur ++ [c]) :: read_lines_aux size file []
    else read_lines_aux size file (cur ++ [c])

/-- The contents of `line_buffer` after each successful `fgets` on a file. -/
def read_lines (file : List Char) : List (List Char) :=
  read_lines_aux 128 file []

/-! ## `parse_file` -/

/-- The loop `while (line_buffer_ptr[0] == ' ') line_buffer_ptr++`. -/
def skip_spaces : List Char → List Char
  | [] => []
  | c :: s => if c = ' ' then skip_spaces s else c :: s

/-- The filter of line 230, `c < ' ' || c > 'z' || c == '/'`.  `char` is
signed, so that a byte from 128 on is less than `' '`; as a `Char` it is
greater than `'z'`, and the filter holds for it either way. -/
def not_command (c : Char) : Bool :=
  decide (c < ' ') || decide (c > 'z') || c = '/'

/-- The loop of lines 237-239: the bytes of the line up to the first `)`, at
most 64 of them and without the `(`, are appended to `label_name`. -/
def label_loop (p : List Char) : Nat → Nat → List Char → List Char
  | 0, _, label_name => label_name
  | n + 1, i, label_name =>
    if peek p i = ')' then label_name
    else label_loop p n (i + 1)
      (if peek p i ≠ '(' then label_name ++ [peek p i] else label_name)

/-- The `std::string` made of `label_name` in line 242. -/
def label_of (p : List Char) : List Char :=
  c_str (label_loop p 64 0 [])

/-- The body of the first loop of `parse_file` (lines 226-245) on one line;
the state is `variable_map` and `command_count`. -/
def pass1_line (st : List (List Char × Nat) × Nat) (line_buffer : List Char) :
    List (List Char × Nat) × Nat :=
  let p := skip_spaces line_buffer
  if not_command (peek p 0) then st
  else if peek p 0 = '(' then (insert_or_assign st.1 (label_of p) st.2, st.2)
  else (st.1, (st.2 + 1) % 65536)

/-- The first loop of `parse_file` over the lines of the file. -/
def pass1 (lines : List (List Char)) (st : List (List Char × Nat) × Nat) :
    List (List Char × Nat) × Nat :=
  lines.foldl pass1_line st

/-- The a-type branch of `parse_file` (lines 260-286) on a line that starts
with `@`: the 16 bytes of the instruction and the globals afterwards. -/
def encode_a_instruction (g : Globals) (p : List Char) :
    Except Error (List Char × Globals) :=
  if '0' ≤ peek p 1 ∧ peek p 1 ≤ '9' then
    match scan_i (p.drop 1) with
    | .error err => .error err
    | .ok num => .ok (generate_a_type (num % 65536), g)
  else
    match scan_s (p.drop 1) with
    | .error err => .error err
    | .ok var_name =>
      match map_find g.variable_map var_name with
      | none =>
        let variable_ptr := (16 + g.variable_count) % 65536
        .ok (generate_a_type variable_ptr,
          { variable_map := insert_or_assign g.variable_map var_name variable_ptr,
            variable_count := (g.variable_count + 1) % 65536 })
      | some variable_ptr => .ok (generate_a_type variable_ptr, g)

/-- The instruction generated for a command (lines 257-294). -/
def encode_instruction (g : Globals) (p : List Char) :
    Except Error (List Char × Globals) :=
  if peek p 0 = '@' then encode_a_instruction g p
  else
    match encode_c_instruction p with
    | .error err => .error err
    | .ok instruction => .ok (instruction, g)

/-- The body of the second loop of `parse_file` (lines 251-296) on one line:
the instruction pushed to `instructions`, if the line is a command, and the
globals afterwards. -/
def pass2_line (g : Globals) (line_buffer : List Char) :
    Except Error (Option (List Char) × Globals) :=
  let p := skip_spaces line_buffer
  if not_command (peek p 0) || peek p 0 = '(' then .ok (none, g)
  else
    match encode_instruction g p with
    | .error err => .error err
    | .ok (instruction, g') => .ok (some instruction, g')

/-- The second loop of `parse_file` over the lines of the file; `instructions`
is the vector of the instructions generated so far. -/
def pass2 : List (List Char) → Globals → List (List Char) →
    Except Error (List (List Char) × Globals)
  | [], g, instructions => .ok (instructions, g)
  | line :: lines, g, instructions =>
    match pass2_line g line with
    | .error err => .error err
    | .ok (none, g') => pass2 lines g' instructions
    | .ok (some instruction, g') => pass2 lines g' (instructions ++ [instruction])

/-- The globals when the first loop of `parse_file` has run over the file:
`variable_map` holds the labels, `variable_count` is unchanged. -/
def globals_after_pass1 (g : Globals) (file : List Char) : Globals :=
  { variable_map := (pass1 (read_lines file) (g.variable_map, 0)).1,
    variable_count := g.variable_count }

/-- Model of `parse_file` on the contents of the file: the lines written to
`out.hack` (each is followed by a newline there) and the globals at the end.
An error is an exception that nothing catches: the program ends before
`out.hack` is opened. -/
def parse_file (g : Globals) (file : List Char) :
    Except Error (List (List Char) × Globals) :=
  pass2 (read_lines file) (globals_after_pass1 g file) []

/-- The value of `command_count` when the first loop of `parse_file` has read
`j` lines of the file. -/
def command_count_after (g : Globals) (file : List Char) (j : Nat) : Nat :=
  (pass1 ((read_lines file).take j) (g.variable_map, 0)).2

/-- The vector `instructions` and the globals when the second loop of
`parse_file` has read `j` lines of the file. -/
def parse_file_upto (g : Globals) (file : List Char) (j : Nat) :
    Except Error (List (List Char) × Globals) :=
  pass2 ((read_lines file).take j) (globals_after_pass1 g file) []

/-! ## The tables and notions of the specification -/

/-- The ALU expression table of the specification (§6): mnemonic and 6-bit
code. -/
def spec_alu_table : List (List Char × List Char) :=
  [ (['0'], ['1', '0', '1', '0', '1', '0']),
    (['1'], ['1', '1', '1', '1', '1', '1']),
    (['-', '1'], ['1', '1', '1', '0', '1', '0']),
    (['D'], ['0', '0', '1', '1', '0', '0']),
    (['A'], ['1', '1', '0', '0', '0', '0']),
    (['!', 'D'], ['0', '0', '1', '1', '0', '1']),
    (['!', 'A'], ['1', '1', '0', '0', '0', '1']),
    (['-', 'D'], ['0', '0', '1', '1', '1', '1']),
    (['-', 'A'], ['1', '1', '0', '0', '1', '1']),
    (['D', '+', '1'], ['0', '1', '1', '1', '1', '1']),
    (['A', '+', '1'], ['1', '1', '0', '1', '1', '1']),
    (['D', '-', '1'], ['0', '0', '1', '1', '1', '0']),
    (['A', '-', '1'], ['1', '1', '0', '0', '1', '0']),
    (['D', '+', 'A'], ['0', '0', '0', '0', '1', '0']),
    (['D', '-', 'A'], ['0', '1', '0', '0', '1', '1']),
    (['A', '-', 'D'], ['0', '0', '0', '1', '1', '1']),
    (['D', '&', 'A'], ['0', '0', '0', '0', '0', '0']),
    (['D', '|', 'A'], ['0', '1', '0', '1', '0', '1']) ]

/-- The jump table of the specification (§6): mnemonic and 3-bit code; the
first entry is the absent jump part. -/
def spec_jump_table : List (List Char × List Char) :=
  [ ([], ['0', '0', '0']),
    (['J', 'G', 'T'], ['0', '0', '1']),
    (['J', 'E', 'Q'], ['0', '1', '0']),
    (['J', 'G', 'E'], ['0', '1', '1']),
    (['J', 'L', 'T'], ['1', '0', '0']),
    (['J', 'N', 'E'], ['1', '0', '1']),
    (['J', 'L', 'E'], ['1', '1', '0']),
    (['J', 'M', 'P'], ['1', '1', '1']) ]

/-- The expression with `A` written for each `M`. -/
def write_A (e : List Char) : List Char := e.map (fun c => if c = 'M' then 'A' else c)
/-- The expression with `M` written for each `A`. -/
def write_M (e : List Char) : List Char := e.map (fun c => if c = 'A' then 'M' else c)
/-- The expressions of a compute line: the 18 mnemonics of the table and the
same with their `A` written as `M`. -/
def alu_expressions : List (List Char) :=
  (spec_alu_table.map Prod.fst) ++ (spec_alu_table.map Prod.fst).map write_M
/-- The seven jump mnemonics. -/
def jump_mnemonics : List (List Char) :=
  [['J', 'G', 'T'], ['J', 'E', 'Q'], ['J', 'G', 'E'], ['J', 'L', 'T'], ['J', 'N', 'E'],
   ['J', 'L', 'E'], ['J', 'M', 'P']]
/-- The selector bit of an expression: `1` if it contains `M`. -/
def selector_bit (e : List Char) : Char := if 'M' ∈ e then '1' else '0'
/-- The 6-bit code of an expression: the entry of the table for the
expression with `M` replaced by `A`. -/
def alu_code (e : List Char) : Option (List Char) := spec_alu_table.lookup (write_A e)
/-- The 3-bit code of a jump mnemonic in the table. -/
def jump_code (j : List Char) : Option (List Char) := spec_jump_table.lookup j
/-- The destination mask of a destination: first bit for `A`, second for `D`,
third for `M`. -/
def dest_mask (d : List Char) : List Char :=
  [if 'A' ∈ d then '1' else '0', if 'D' ∈ d then '1' else '0', if 'M' ∈ d then '1' else '0']
/-- A text of at most three bytes as a three-byte field, filled up with
spaces. -/
def pad3 (s : List Char) : List Char := (s ++ [' ', ' ', ' ']).take 3
/-- What follows ends the line: nothing, a newline, a carriage return, a
space or a NUL. -/
def line_end : List Char → Prop
  | [] => True
  | c :: _ => c = '\n' ∨ c = '\r' ∨ c = ' ' ∨ c = NUL

instance (rest : List Char) : Decidable (line_end rest) := by
  cases rest <;> (unfold line_end; infer_instance)

/-- The number written by a string of binary digits, the most significant
first. -/
def binary_value (bits : List Char) : Nat :=
  bits.foldl (fun acc c => 2 * acc + (if c = '1' then 1 else 0)) 0

/-- What follows a decimal numeral does not continue it: nothing, or a byte
that is neither a digit nor the `x` of a hexadecimal prefix. -/
def numeral_end : List Char → Prop
  | [] => True
  | c :: _ => ¬ ('0' ≤ c ∧ c ≤ '9') ∧ c ≠ 'x' ∧ c ≠ 'X'

instance (rest : List Char) : Decidable (numeral_end rest) := by
  cases rest <;> (unfold numeral_end; infer_instance)

/-- A line is an instruction line when its first byte other than a space has
a code from 32 to 122 and is neither `/` nor `(`. -/
def instruction_line (line : List Char) : Bool :=
  match (line.dropWhile (· = ' ')).head? with
  | some c => decide (32 ≤ c.toNat) && decide (c.toNat ≤ 122) && c ≠ '/' && c ≠ '('
  | none => false

/-- The line classifier takes the line for the declaration of the label
`name`. -/
def declares (line name : List Char) : Bool :=
  peek (skip_spaces line) 0 = '(' && label_of (skip_spaces line) = name

/-- The name that a symbolic address line `@name` refers to, as the second
loop reads it. -/
def symbol_of (line : List Char) : Option (List Char) :=
  let p := skip_spaces line
  if peek p 0 = '@' ∧ ¬ ('0' ≤ peek p 1 ∧ peek p 1 ≤ '9') then
    match scan_s (p.drop 1) with
    | .ok name => some name
    | .error _ => none
  else none

/-- An identifier: at most 63 bytes and at least one, none of them white
space, a NUL or a parenthesis, the first not a digit. -/
def identifier (x : List Char) : Prop :=
  x ≠ [] ∧ x.length ≤ 63 ∧
    (∀ c ∈ x, isspace c = false ∧ c ≠ NUL ∧ c ≠ '(' ∧ c ≠ ')') ∧
    ¬ ('0' ≤ peek x 0 ∧ peek x 0 ≤ '9')

instance (x : List Char) : Decidable (identifier x) := by
  unfold identifier
  infer_instance

/-- What follows a name ends it: nothing, white space or a NUL. -/
def name_end : List Char → Prop
  | [] => True
  | c :: _ => isspace c = true ∨ c = NUL

instance (rest : List Char) : Decidable (name_end rest) := by
  cases rest <;> (unfold name_end; infer_instance)

/-- The line is `(name)`, after any number of spaces and with anything behind
the closing parenthesis. -/
def label_line (name line : List Char) : Prop :=
  ∃ s rest, line = List.replicate s ' ' ++ '(' :: (name ++ ')' :: rest)

/-- The line is `@name`, after any number of spaces, and the name ends there. -/
def reference_line (name line : List Char) : Prop :=
  ∃ s rest, line = List.replicate s ' ' ++ '@' :: (name ++ rest) ∧ name_end rest

/-- The name is a variable of the source: it is not pre-seeded and no line
declares it as a label. -/
def is_variable (lines : List (List Char)) (name : List Char) : Bool :=
  (map_find variable_map_init name).isNone && lines.all (fun l => !declares l name)

/-- The distinct variables of the source `lines` that the symbolic address
lines among `earlier` refer to. -/
def variables_used (lines earlier : List (List Char)) : List (List Char) :=
  ((earlier.filterMap symbol_of).filter (is_variable lines)).dedup

/-- The pre-seeded symbol table of the specification (§6): `SP`, `LCL`,
`ARG`, `THIS`, `THAT`, the registers `R0` to `R15`, `SCREEN` and `KBD`. -/
def spec_preseeded : List (List Char × Nat) :=
  [(['S', 'P'], 0), (['L', 'C', 'L'], 1), (['A', 'R', 'G'], 2), (['T', 'H', 'I', 'S'], 3),
   (['T', 'H', 'A', 'T'], 4)]
  ++ (List.range 16).map (fun i => ('R' :: Nat.toDigits 10 i, i))
  ++ [(['S', 'C', 'R', 'E', 'E', 'N'], 16384), (['K', 'B', 'D'], 24576)]

/-- The six-line example of the specification, each line with a newline. -/
def example_source : List Char := "@2\nD=A\n@3\nD=D+A\n@0\nM=D\n".toList

/-- The six-line example with MS-DOS line ends and no line end after the
last line. -/
def example_source_crlf : List Char := "@2\r\nD=A\r\n@3\r\nD=D+A\r\n@0\r\nM=D".toList

/-- The six words of the example. -/
def example_words : List (List Char) :=
  [ "0000000000000010".toList, "1110110000010000".toList, "0000000000000011".toList,
    "1110000010010000".toList, "0000000000000000".toList, "1110001100001000".toList ]

/-- A source of 65536 instruction lines `0;JMP`. -/
def long_source : List Char :=
  (List.replicate 65536 ['0', ';', 'J', 'M', 'P', '\n']).flatten

/-- A source with a reference to a label before and after its declaration. -/
def label_example : List Char := "@L\n(L)\n@L\n".toList

/-- A source with two variables and a pre-seeded symbol. -/
def variable_example : List Char := "@i\n@SP\n@j\n@i\n".toList

/-- A source with pre-seeded symbols and one variable. -/
def preseeded_example : List Char := "@SP\n@x\n@KBD\n".toList

/-- The member `jump` of the components of an instruction (lines 88-97). -/
def jump_part (instruction : List Char) : List Char :=
  match strchr instruction ';' with
  | some s => jump_loop (instruction.drop (s + 1)) 3 0 [' ', ' ', ' ']
  | none => [' ', ' ', ' ']

/-- The byte behind `pre` on the line `pre ++ c :: post` belongs to the
expression that `split_c_instruction` reads: on a line with `=` it is one of
the first three bytes behind the first `=`, with no line end in between; on
a line without `=` it is one of the first three bytes of the line, with no
`;` in front of it. -/
def expression_position (pre post : List Char) : Prop :=
  (∃ d x, pre = d ++ '=' :: x ∧ (∀ c ∈ d, c ≠ '=' ∧ c ≠ NUL) ∧ x.length ≤ 2 ∧
    ∀ c ∈ x, c ≠ ' ' ∧ c ≠ NUL ∧ c ≠ '\r' ∧ c ≠ '\n') ∨
  (strchr (pre ++ 'A' :: post) '=' = none ∧ pre.length ≤ 2 ∧ ∀ c ∈ pre, c ≠ ';')

/-- The three fixed high bits of a word. -/
def high_bits (w : List Char) : List Char := w.take 3

/-- The selector bit of a word, as a string of one byte. -/
def selector_field (w : List Char) : List Char := (w.drop 3).take 1

/-- The six ALU bits of a compute word. -/
def comp_field (w : List Char) : List Char := (w.drop 4).take 6

/-- The three destination bits of a compute word. -/
def dest_field (w : List Char) : List Char := (w.drop 10).take 3

/-- The three jump bits of a compute word. -/
def jump_field (w : List Char) : List Char := (w.drop 13).take 3

/-- The keys of the ALU table of the specification as three-byte fields. -/
def spec_alu_fields : List (List Char) := spec_alu_table.map (fun e => pad3 e.1)

/-- The keys of the jump table of the specification as three-byte fields;
the absent jump is the field of three spaces. -/
def spec_jump_fields : List (List Char) := spec_jump_table.map (fun e => pad3 e.1)

/-- The bytes that the call writes to `out.hack` (lines 301-309), if it gets
there: each instruction and a newline.  The file is opened when the second
loop has ended; an exception ends the call before that. -/
def written_output (g : Globals) (file : List Char) : Option (List Char) :=
  match parse_file g file with
  | .ok (instructions, _) => some (instructions.map (· ++ ['\n'])).flatten
  | .error _ => none

/-- The map `variable_map` when the first loop of `parse_file` has read `j`
lines of the file. -/
def variable_map_after (g : Globals) (file : List Char) (j : Nat) : List (List Char × Nat) :=
  (pass1 ((read_lines file).take j) (g.variable_map, 0)).1

/-- A source that declares the label `L` twice and the pre-seeded name `SP`
as a label. -/
def redeclared_example : List Char := "(L)\n@0\n(L)\n(SP)\n".toList

/-- A source whose second line is not encoded. -/
def failing_example : List Char := "@1\nD=A;JMP\n@2\n".toList

/-- A word of the output: 16 bytes, each `0` or `1`. -/
def machine_word (w : List Char) : Prop :=
  w.length = 16 ∧ ∀ c ∈ w, c = '0' ∨ c = '1'

/-- The globals after a run on the source `@x` from the initial globals. -/
def globals_after_x : Globals :=
  { variable_map := insert_or_assign variable_map_init ['x'] 16, variable_count := 1 }

/-- The destination letters that `generate_c_type` reads in `dest_input`:
the letters `A`, `D`, `M` among the first three bytes, in front of the first
byte that is none of them. -/
def destination_letters (dest_input : List Char) : List Char :=
  (dest_input.take 3).takeWhile (fun c => decide (c = 'A' ∨ c = 'D' ∨ c = 'M'))

/-! ## Lemmas on C strings and on the loops of `split_c_instruction` -/

theorem strchr_append (c : Char) (r : List Char) :
    ∀ d : List Char, (∀ x ∈ d, x ≠ c ∧ x ≠ NUL) →
      strchr (d ++ r) c = (strchr r c).map (· + d.length)
  | [], _ => by simp
  | x :: d, h => by
    have hx := h x (List.mem_cons_self _ _)
    have ih := strchr_append c r d (fun y hy => h y (List.mem_cons_of_mem _ hy))
    rw [List.cons_append, strchr, if_neg hx.1, if_neg hx.2, ih, List.length_cons]
    cases strchr r c <;> simp [Nat.add_assoc]

theorem strchr_cons_self (c : Char) (r : List Char) : strchr (c :: r) c = some 0 := by
  simp [strchr]

theorem peek_nil (i : Nat) : peek [] i = NUL := by simp [peek]
theorem peek_cons_zero (a : Char) (l : List Char) : peek (a :: l) 0 = a := by simp [peek]
theorem peek_cons_succ (a : Char) (l : List Char) (i : Nat) :
    peek (a :: l) (i + 1) = peek l i := by simp [peek]

theorem value_loop_eq_append (st : Char × List Char) (e rest : List Char)
    (hlen : e.length ≤ 3)
    (he : ∀ c ∈ e, c ≠ ' ' ∧ c ≠ NUL ∧ c ≠ '\r' ∧ c ≠ '\n') (hrest : line_end rest) :
    value_loop_eq (e ++ rest) 3 0 st = value_loop_eq e 3 0 st := by
  obtain ⟨am, v⟩ := st
  match e, hlen, he with
  | [], _, _ =>
    cases rest with
    | nil => rfl
    | cons t r =>
      rcases hrest with h | h | h | h <;> subst h <;>
        simp [value_loop_eq, peek_cons_zero, peek_nil]
  | [a], _, he =>
    cases rest with
    | nil => rfl
    | cons t r =>
      rcases hrest with h | h | h | h <;> subst h <;>
        simp [value_loop_eq, peek_cons_zero, peek_cons_succ, peek_nil]
  | [a, b], _, he =>
    cases rest with
    | nil => rfl
    | cons t r =>
      rcases hrest with h | h | h | h <;> subst h <;>
        simp [value_loop_eq, peek_cons_zero, peek_cons_succ, peek_nil]
  | [a, b, c], _, he =>
    simp [value_loop_eq, peek_cons_zero, peek_cons_succ, peek_nil]
  | _ :: _ :: _ :: _ :: _, hlen, _ =>
    simp at hlen


theorem destination_loop_copy (d t : List Char) (hd1 : d ≠ []) (hd3 : d.length ≤ 3) :
    destination_loop (d ++ t) d.length (d.length + 1) 0 [' ', ' ', ' '] = .ok (pad3 d) := by
  match d, hd1, hd3 with
  | [a], _, _ => simp [destination_loop, peek, pad3]
  | [a, b], _, _ => simp [destination_loop, peek, pad3]
  | [a, b, c], _, _ => simp [destination_loop, peek, pad3]
  | _ :: _ :: _ :: _ :: _, _, h => simp at h

theorem dest_loop_letters (d : List Char) (hd1 : d ≠ []) (hd3 : d.length ≤ 3)
    (hd : ∀ c ∈ d, c = 'A' ∨ c = 'D' ∨ c = 'M') :
    dest_loop (pad3 d) 3 0 ['0', '0', '0'] = dest_mask d := by
  match d, hd1, hd3, hd with
  | [a], _, _, hd =>
    rcases hd a (by simp) with h | h | h <;> subst h <;> decide
  | [a, b], _, _, hd =>
    rcases hd a (by simp) with h | h | h <;> subst h <;>
    rcases hd b (by simp) with h | h | h <;> subst h <;> decide
  | [a, b, c], _, _, hd =>
    rcases hd a (by simp) with h | h | h <;> subst h <;>
    rcases hd b (by simp) with h | h | h <;> subst h <;>
    rcases hd c (by simp) with h | h | h <;> subst h <;> decide
  | _ :: _ :: _ :: _ :: _, _, h, _ => simp at h


set_option maxRecDepth 100000 in
theorem alu_expressions_chars : ∀ e ∈ alu_expressions,
    e.length ≤ 3 ∧ ∀ c ∈ e, c ≠ ' ' ∧ c ≠ NUL ∧ c ≠ '\r' ∧ c ≠ '\n' ∧ c ≠ ';' ∧ c ≠ '=' := by
  decide

set_option maxRecDepth 100000 in
theorem value_loop_eq_table : ∀ e ∈ alu_expressions,
    value_loop_eq e 3 0 ('0', [' ', ' ', ' ']) = (selector_bit e, pad3 (write_A e)) := by
  decide

set_option maxRecDepth 100000 in
theorem alu_inputs_at_table : ∀ e ∈ alu_expressions, ∃ code, alu_code e = some code ∧
    code.length = 6 ∧
    map_at (string_comparison 3) alu_inputs (pad3 (write_A e)) = .ok code := by
  decide

theorem drop_past_separator (d t : List Char) (c : Char) :
    (d ++ c :: t).drop (d.length + 1) = t := by
  rw [List.drop_append]; rfl

theorem letters_ne (d : List Char) (hd : ∀ c ∈ d, c = 'A' ∨ c = 'D' ∨ c = 'M') (x : Char)
    (hA : x ≠ 'A') (hD : x ≠ 'D') (hM : x ≠ 'M') : ∀ c ∈ d, c ≠ x ∧ c ≠ NUL := by
  intro c hc
  rcases hd c hc with h | h | h <;> subst h
  · exact ⟨fun h => hA h.symm, by decide⟩
  · exact ⟨fun h => hD h.symm, by decide⟩
  · exact ⟨fun h => hM h.symm, by decide⟩

theorem generate_c_type_ok (am : Char) (v dst j comp jc : List Char)
    (h1 : map_at (string_comparison 3) alu_inputs v = .ok comp)
    (h2 : map_at (string_comparison 3) jump_inputs j = .ok jc) :
    generate_c_type am v dst j =
      .ok (['1', '1', '1'] ++ [am] ++ comp.take 6 ++ dest_loop dst 3 0 ['0', '0', '0']
        ++ jc.take 3) := by
  unfold generate_c_type
  rw [h1, h2]

theorem jump_inputs_at_none :
    map_at (string_comparison 3) jump_inputs [' ', ' ', ' '] = .ok ['0', '0', '0'] := by
  decide

/-- C1. For a destination `d` of one to three letters from `A`, `D`, `M` and
an expression `e` that is one of the 18 mnemonics of the table or one of them
with its `A` written as `M`, the line `d=e`, followed by the end of the line
(nothing, newline, carriage return, space or NUL) and with no `;` behind it,
is encoded to `111`, the selector bit of `e`, the 6-bit code that the table of
the specification gives for `e` with `M` replaced by `A`, the destination
mask of `d` and `000`. -/
theorem C1_dest_expr (d e rest : List Char) (hd1 : d ≠ []) (hd3 : d.length ≤ 3)
    (hd : ∀ c ∈ d, c = 'A' ∨ c = 'D' ∨ c = 'M') (he : e ∈ alu_expressions)
    (hend : line_end rest) (hsemi : strchr rest ';' = none) :
    ∃ code, alu_code e = some code ∧ code.length = 6 ∧
      encode_c_instruction (d ++ '=' :: (e ++ rest)) =
        .ok (['1', '1', '1', selector_bit e] ++ code ++ dest_mask d ++ ['0', '0', '0']) := by
  obtain ⟨hlen, hch⟩ := alu_expressions_chars e he
  obtain ⟨code, hcode, hclen, hat⟩ := alu_inputs_at_table e he
  refine ⟨code, hcode, hclen, ?_⟩
  have heq : strchr (d ++ '=' :: (e ++ rest)) '=' = some d.length := by
    rw [strchr_append _ _ d (letters_ne d hd '=' (by decide) (by decide) (by decide)),
      strchr_cons_self]
    simp
  have hsc : strchr (d ++ '=' :: (e ++ rest)) ';' = none := by
    rw [strchr_append _ _ d (letters_ne d hd ';' (by decide) (by decide) (by decide)),
      strchr, if_neg (by decide), if_neg (by decide),
      strchr_append _ _ e (fun c hc => ⟨(hch c hc).2.2.2.2.1, (hch c hc).2.1⟩), hsemi]
    rfl
  have hval : value_loop_eq (e ++ rest) 3 0 ('0', [' ', ' ', ' '])
      = (selector_bit e, pad3 (write_A e)) := by
    rw [value_loop_eq_append _ e rest hlen
      (fun c hc => ⟨(hch c hc).1, (hch c hc).2.1, (hch c hc).2.2.1, (hch c hc).2.2.2.1⟩) hend]
    exact value_loop_eq_table e he
  unfold encode_c_instruction split_c_instruction
  rw [heq, hsc]
  simp only [drop_past_separator]
  rw [hval, destination_loop_copy d _ hd1 hd3]
  simp only
  rw [generate_c_type_ok _ _ _ _ _ _ hat jump_inputs_at_none, dest_loop_letters d hd1 hd3 hd,
    List.take_of_length_le (le_of_eq hclen)]
  rfl

/-- C1 at the line `MD=D+M` with a carriage return and a newline. -/
theorem C1_dest_expr_witness :
    ∃ code, alu_code ['D', '+', 'M'] = some code ∧ code.length = 6 ∧
      encode_c_instruction (['M', 'D'] ++ '=' :: (['D', '+', 'M'] ++ ['\r', '\n'])) =
        .ok (['1', '1', '1', selector_bit ['D', '+', 'M']] ++ code ++ dest_mask ['M', 'D']
          ++ ['0', '0', '0']) :=
  C1_dest_expr ['M', 'D'] ['D', '+', 'M'] ['\r', '\n'] (by decide) (by decide) (by decide)
    (by decide) (by decide) (by decide)


theorem value_loop_noeq_append (st : Char × List Char) (e t : List Char)
    (hlen : e.length ≤ 3) (he : ∀ c ∈ e, c ≠ ';') :
    value_loop_noeq (e ++ ';' :: t) 3 0 st = value_loop_noeq (e ++ [';']) 3 0 st := by
  obtain ⟨am, v⟩ := st
  match e, hlen, he with
  | [], _, _ => simp [value_loop_noeq, peek_cons_zero]
  | [a], _, he => simp [value_loop_noeq, peek_cons_zero, peek_cons_succ]
  | [a, b], _, he => simp [value_loop_noeq, peek_cons_zero, peek_cons_succ]
  | [a, b, c], _, he => simp [value_loop_noeq, peek_cons_zero, peek_cons_succ]
  | _ :: _ :: _ :: _ :: _, hlen, _ => simp at hlen

set_option maxRecDepth 100000 in
theorem value_loop_noeq_table : ∀ e ∈ alu_expressions,
    value_loop_noeq (e ++ [';']) 3 0 ('0', [' ', ' ', ' ']) = (selector_bit e, pad3 (write_A e)) := by
  decide

set_option maxRecDepth 100000 in
theorem jump_mnemonics_chars : ∀ j ∈ jump_mnemonics,
    j.length = 3 ∧ ∀ c ∈ j, c ≠ ' ' ∧ c ≠ NUL ∧ c ≠ '=' ∧ c ≠ ';' := by
  decide

set_option maxRecDepth 100000 in
theorem jump_inputs_at_table : ∀ j ∈ jump_mnemonics, ∃ jc, jump_code j = some jc ∧
    jc.length = 3 ∧ map_at (string_comparison 3) jump_inputs j = .ok jc := by
  decide

theorem jump_loop_three (j rest init : List Char) (hlen : j.length = 3)
    (hinit : init.length = 3) (hj : ∀ c ∈ j, c ≠ ' ') :
    jump_loop (j ++ rest) 3 0 init = j := by
  match j, hlen, init, hinit with
  | [a, b, c], _, [x, y, z], _ =>
    have ha := hj a (by simp)
    have hb := hj b (by simp)
    have hc := hj c (by simp)
    simp [jump_loop, peek_cons_zero, peek_cons_succ, ha, hb, hc]

/-- C2. For an expression `e` of the table, or one with its `A` written as
`M`, and a jump mnemonic `j`, the line `e;j` without `=` is encoded to `111`,
the selector bit of `e`, the 6-bit code of `e`, the destination bits `000`
and the 3-bit code that the jump table of the specification gives for `j`. -/
theorem C2_expr_jump (e j rest : List Char) (he : e ∈ alu_expressions)
    (hj : j ∈ jump_mnemonics) (heq : strchr rest '=' = none) :
    ∃ code jc, alu_code e = some code ∧ code.length = 6 ∧ jump_code j = some jc ∧
      jc.length = 3 ∧
      encode_c_instruction (e ++ ';' :: (j ++ rest)) =
        .ok (['1', '1', '1', selector_bit e] ++ code ++ ['0', '0', '0'] ++ jc) := by
  obtain ⟨hlen, hch⟩ := alu_expressions_chars e he
  obtain ⟨code, hcode, hclen, hat⟩ := alu_inputs_at_table e he
  obtain ⟨hjlen, hjch⟩ := jump_mnemonics_chars j hj
  obtain ⟨jc, hjc, hjclen, hjat⟩ := jump_inputs_at_table j hj
  refine ⟨code, jc, hcode, hclen, hjc, hjclen, ?_⟩
  have hsc : strchr (e ++ ';' :: (j ++ rest)) ';' = some e.length := by
    rw [strchr_append _ _ e (fun c hc => ⟨(hch c hc).2.2.2.2.1, (hch c hc).2.1⟩),
      strchr_cons_self]
    simp
  have hne : strchr (e ++ ';' :: (j ++ rest)) '=' = none := by
    rw [strchr_append _ _ e (fun c hc => ⟨(hch c hc).2.2.2.2.2, (hch c hc).2.1⟩),
      strchr, if_neg (by decide), if_neg (by decide),
      strchr_append _ _ j (fun c hc => ⟨(hjch c hc).2.2.1, (hjch c hc).2.1⟩), heq]
    rfl
  unfold encode_c_instruction split_c_instruction
  rw [hsc, hne]
  simp only [drop_past_separator]
  rw [jump_loop_three j rest [' ', ' ', ' '] hjlen rfl (fun c hc => (hjch c hc).1),
    value_loop_noeq_append _ e _ hlen (fun c hc => (hch c hc).2.2.2.2.1),
    value_loop_noeq_table e he]
  simp only
  rw [generate_c_type_ok _ _ _ _ _ _ hat hjat, List.take_of_length_le (le_of_eq hclen),
    List.take_of_length_le (le_of_eq hjclen)]
  rfl

/-- C2 at the line `0;JMP`. -/
theorem C2_expr_jump_witness :
    ∃ code jc, alu_code ['0'] = some code ∧ code.length = 6 ∧
      jump_code ['J', 'M', 'P'] = some jc ∧ jc.length = 3 ∧
      encode_c_instruction (['0'] ++ ';' :: (['J', 'M', 'P'] ++ ['\n'])) =
        .ok (['1', '1', '1', selector_bit ['0']] ++ code ++ ['0', '0', '0'] ++ jc) :=
  C2_expr_jump ['0'] ['J', 'M', 'P'] ['\n'] (by decide) (by decide) (by decide)

/-- C3 fails in the code for an expression of one or two characters in the
full form: on the line `D=A;JMP` the loop behind the `=` does not stop at the
`;`, the value field is `A;J` and `alu_inputs.at` throws. -/
theorem C3_full_form_short_expression_fails :
    encode_c_instruction ['D', '=', 'A', ';', 'J', 'M', 'P', '\n'] = .error .out_of_range := by
  decide

/-! ## Address instructions -/

theorem bitset_to_string_length (w n : Nat) : (bitset_to_string w n).length = w := by
  induction w with
  | zero => rfl
  | succ w ih => simp [bitset_to_string, ih]

theorem bitset_to_string_bits (w n : Nat) :
    ∀ c ∈ bitset_to_string w n, c = '0' ∨ c = '1' := by
  induction w with
  | zero => simp [bitset_to_string]
  | succ w ih =>
    intro c hc
    simp only [bitset_to_string, List.mem_cons] at hc
    rcases hc with h | h
    · subst h; split <;> simp
    · exact ih c h

theorem bitset_to_string_foldl (w n acc : Nat) :
    (bitset_to_string w n).foldl (fun acc c => 2 * acc + (if c = '1' then 1 else 0)) acc
      = acc * 2 ^ w + n % 2 ^ w := by
  induction w generalizing acc with
  | zero => simp [bitset_to_string, Nat.mod_one]
  | succ w ih =>
    rw [bitset_to_string, List.foldl_cons, ih, Nat.mod_pow_succ]
    have h2 : n / 2 ^ w % 2 = 0 ∨ n / 2 ^ w % 2 = 1 := by omega
    rcases h2 with h | h <;> simp [h] <;> ring

theorem binary_value_bitset (w n : Nat) : binary_value (bitset_to_string w n) = n % 2 ^ w := by
  simp [binary_value, bitset_to_string_foldl]

theorem digit_value_digitChar : ∀ m, m < 10 →
    digit_value 10 (Nat.digitChar m) = some m ∧ '0' ≤ Nat.digitChar m ∧ Nat.digitChar m ≤ '9' ∧
      (0 < m → Nat.digitChar m ≠ '0') := by
  decide

theorem scan_digits_end (base acc : Nat) (rest : List Char)
    (h : ∀ c t, rest = c :: t → digit_value base c = none) :
    scan_digits base rest acc = acc := by
  cases rest with
  | nil => rfl
  | cons c t => simp [scan_digits, h c t rfl]

/-- The shape of the decimal numeral made by `Nat.toDigitsCore`. -/
theorem toDigitsCore_numeral (fuel : Nat) : ∀ (n : Nat) (ds : List Char), n < fuel →
    ∃ c t, Nat.toDigitsCore 10 fuel n ds = c :: (t ++ ds) ∧ '0' ≤ c ∧ c ≤ '9' ∧
      (0 < n → c ≠ '0') ∧ (n = 0 → t = []) ∧
      ∀ r a, scan_digits 10 (c :: (t ++ r)) a = scan_digits 10 r (a * 10 ^ (t.length + 1) + n) := by
  induction fuel with
  | zero => intro n ds h; exact absurd h (Nat.not_lt_zero _)
  | succ fuel ih =>
    intro n ds hn
    obtain ⟨hv, hlo, hhi, hnz⟩ := digit_value_digitChar (n % 10) (Nat.mod_lt _ (by decide))
    rw [Nat.toDigitsCore]
    by_cases h10 : n / 10 = 0
    · have hlt : n < 10 := by omega
      rw [Nat.mod_eq_of_lt hlt] at hv hlo hhi hnz
      simp only [h10, if_true]
      refine ⟨Nat.digitChar n, [], by simp [Nat.mod_eq_of_lt hlt], hlo, hhi, hnz, fun _ => rfl, ?_⟩
      intro r a
      simp [scan_digits, hv]
    · simp only [h10, if_false]
      obtain ⟨c, t, heq, hclo, hchi, hcz, _, hscan⟩ :=
        ih (n / 10) (Nat.digitChar (n % 10) :: ds) (by omega)
      refine ⟨c, t ++ [Nat.digitChar (n % 10)], by simp [heq], hclo, hchi,
        fun _ => hcz (by omega), fun h0 => absurd h0 (by omega), ?_⟩
      intro r a
      have := hscan (Nat.digitChar (n % 10) :: r) a
      simp only [List.append_assoc, List.singleton_append, List.length_append,
        List.length_singleton]
      rw [this, scan_digits, hv]
      simp only
      congr 1
      have : n = 10 * (n / 10) + n % 10 := (Nat.div_add_mod n 10).symm
      generalize n / 10 = q at *
      generalize n % 10 = m at *
      subst this
      ring


theorem digit_value_none (base : Nat) (hb : base ≤ 10) (x : Char)
    (hx : ¬ ('0' ≤ x ∧ x ≤ '9')) : digit_value base x = none := by
  unfold digit_value
  rw [if_neg hx]
  split_ifs with h1 h2
  · have : 97 ≤ x.toNat := h1.1
    have hlt : ¬ (x.toNat - 87 < base) := by omega
    simp [hlt]
  · have : 65 ≤ x.toNat := h2.1
    have hlt : ¬ (x.toNat - 55 < base) := by omega
    simp [hlt]
  · rfl

theorem scan_digits_numeral_end (base : Nat) (hb : base ≤ 10) (acc : Nat) (rest : List Char)
    (hrest : numeral_end rest) : scan_digits base rest acc = acc := by
  apply scan_digits_end
  intro c t h
  subst h
  exact digit_value_none base hb c hrest.1

theorem scan_i_numeral (n : Nat) (rest : List Char) (hn : n < 2 ^ 31)
    (hrest : numeral_end rest) : scan_i (Nat.toDigits 10 n ++ rest) = .ok n := by
  obtain ⟨c, t, heq, _, _, hcz, ht, hscan⟩ := toDigitsCore_numeral (n + 1) n [] (by omega)
  rcases Nat.eq_zero_or_pos n with h0 | hpos
  · subst h0
    cases rest with
    | nil => rfl
    | cons x r =>
      have hx : ¬ (x = 'x' ∨ x = 'X') := fun h => h.elim hrest.2.1 hrest.2.2
      have h8 : digit_value 8 '0' = some 0 := by decide
      show scan_i ('0' :: x :: r) = .ok 0
      simp only [scan_i, if_neg hx, scan_digits, h8, digit_value_none 8 (by decide) x hrest.1]
      rfl
  · have hc := hcz hpos
    have hd : Nat.toDigits 10 n ++ rest = c :: (t ++ rest) := by
      rw [Nat.toDigits, heq]; simp
    rw [hd]
    have hv : scan_digits 10 (c :: (t ++ rest)) 0 = n := by
      rw [hscan, scan_digits_numeral_end 10 (by decide) _ rest hrest]; simp
    unfold scan_i
    split
    · rename_i h; simp only [List.cons.injEq] at h; exact absurd h.1 hc
    · rename_i h; simp only [List.cons.injEq] at h; exact absurd h.1 hc
    · simp only [hv, if_pos hn]

theorem bit_mod_two_pow (n i j : Nat) (h : i < j) : n % 2 ^ j / 2 ^ i % 2 = n / 2 ^ i % 2 := by
  have h1 := @Nat.testBit_to_div_mod i (n % 2 ^ j)
  have h2 := @Nat.testBit_to_div_mod i n
  have h3 := Nat.testBit_mod_two_pow n j i
  rw [h1, h2] at h3
  simp only [h, decide_True, Bool.true_and, decide_eq_decide] at h3
  have a : n % 2 ^ j / 2 ^ i % 2 < 2 := Nat.mod_lt _ (by decide)
  have b : n / 2 ^ i % 2 < 2 := Nat.mod_lt _ (by decide)
  omega

theorem bitset_to_string_mod (w j n : Nat) (h : w ≤ j) :
    bitset_to_string w (n % 2 ^ j) = bitset_to_string w n := by
  induction w with
  | zero => rfl
  | succ w ih =>
    rw [bitset_to_string, bitset_to_string, ih (by omega), bit_mod_two_pow n w j (by omega)]

theorem generate_a_type_mod (n : Nat) : generate_a_type (n % 65536) = generate_a_type n := by
  unfold generate_a_type
  rw [show (65536 : Nat) = 2 ^ 16 by norm_num, bitset_to_string_mod 15 16 n (by decide)]

/-- C4. For `n ≤ 32767` the line `@` followed by the decimal numeral of `n`
(and then by nothing that continues a numeral) is encoded by the second loop
as `0` followed by 15 binary digits whose value, most significant digit first,
is `n`; the globals do not change. -/
theorem C4_address_literal (g : Globals) (n : Nat) (rest : List Char) (hn : n ≤ 32767)
    (hrest : numeral_end rest) :
    ∃ bits, pass2_line g ('@' :: (Nat.toDigits 10 n ++ rest)) = .ok (some ('0' :: bits), g) ∧
      bits.length = 15 ∧ (∀ c ∈ bits, c = '0' ∨ c = '1') ∧ binary_value bits = n := by
  refine ⟨bitset_to_string 15 n, ?_, bitset_to_string_length 15 n, bitset_to_string_bits 15 n,
    ?_⟩
  · obtain ⟨c, t, heq, hlo, hhi, _, _, _⟩ := toDigitsCore_numeral (n + 1) n [] (by omega)
    have hscan := scan_i_numeral n rest (by omega) hrest
    have hd : Nat.toDigits 10 n ++ rest = c :: (t ++ rest) := by
      rw [Nat.toDigits, heq]; simp
    have hmod : n % 65536 = n := Nat.mod_eq_of_lt (by omega)
    have hp : skip_spaces ('@' :: (Nat.toDigits 10 n ++ rest))
        = '@' :: (Nat.toDigits 10 n ++ rest) := by
      rw [skip_spaces, if_neg (by decide)]
    have h1 : peek ('@' :: (Nat.toDigits 10 n ++ rest)) 1 = c := by
      rw [hd]; rfl
    have h0 : peek ('@' :: (Nat.toDigits 10 n ++ rest)) 0 = '@' := rfl
    have hnc : (not_command '@' || decide ('@' = '(')) = false := by decide
    unfold pass2_line
    simp only [hp, h0, hnc]
    unfold encode_instruction encode_a_instruction
    simp only [h0, h1, hlo, hhi, and_self, if_true, List.drop_one, List.tail_cons, hscan, hmod]
    rfl
  · rw [binary_value_bitset]
    exact Nat.mod_eq_of_lt (by omega)

/-- C4 at the line `@12345`. -/
theorem C4_address_literal_witness :
    ∃ bits, pass2_line globals_init ('@' :: (Nat.toDigits 10 12345 ++ ['\n']))
        = .ok (some ('0' :: bits), globals_init) ∧
      bits.length = 15 ∧ (∀ c ∈ bits, c = '0' ∨ c = '1') ∧ binary_value bits = 12345 :=
  C4_address_literal globals_init 12345 ['\n'] (by decide) (by decide)

/-! ## The two loops of `parse_file` -/

theorem skip_spaces_eq_dropWhile (l : List Char) :
    skip_spaces l = l.dropWhile (· = ' ') := by
  induction l with
  | nil => rfl
  | cons c s ih =>
    by_cases h : c = ' '
    · simp [skip_spaces, h, ih]
    · simp [skip_spaces, h]

theorem filter_eq_not_instruction_line (l : List Char) :
    (not_command (peek (skip_spaces l) 0) || decide (peek (skip_spaces l) 0 = '('))
      = !instruction_line l := by
  rw [skip_spaces_eq_dropWhile, instruction_line]
  cases h : l.dropWhile (· = ' ') with
  | nil => simp [peek, not_command]; decide
  | cons c t =>
    simp only [peek, List.getD_cons_zero, List.head?_cons, not_command]
    have h1 : (c < ' ') ↔ ¬ (32 ≤ c.toNat) := by
      show c.toNat < 32 ↔ _
      omega
    have h2 : (c > 'z') ↔ ¬ (c.toNat ≤ 122) := by
      show 122 < c.toNat ↔ _
      omega
    by_cases a1 : 32 ≤ c.toNat <;> by_cases a2 : c.toNat ≤ 122 <;> by_cases a3 : c = '/' <;>
      by_cases a4 : c = '(' <;> simp [h1, h2, a1, a2, a3, a4]

theorem pass2_line_not_instruction (g : Globals) (l : List Char)
    (h : instruction_line l = false) : pass2_line g l = .ok (none, g) := by
  unfold pass2_line
  simp only [filter_eq_not_instruction_line, h]
  rfl

theorem pass2_line_instruction (g : Globals) (l : List Char)
    (h : instruction_line l = true) :
    pass2_line g l =
      match encode_instruction g (skip_spaces l) with
      | .error err => .error err
      | .ok (instruction, g') => .ok (some instruction, g') := by
  unfold pass2_line
  simp only [filter_eq_not_instruction_line, h]
  rfl

theorem pass2_append (a b : List (List Char)) (g : Globals) (o : List (List Char)) :
    pass2 (a ++ b) g o =
      match pass2 a g o with
      | .error err => .error err
      | .ok (o', g') => pass2 b g' o' := by
  induction a generalizing g o with
  | nil => rfl
  | cons l a ih =>
    simp only [List.cons_append, pass2]
    cases h : pass2_line g l with
    | error e => rfl
    | ok r =>
      obtain ⟨w, g'⟩ := r
      cases w with
      | none => exact ih g' o
      | some w => exact ih g' _

theorem pass2_filter (ls : List (List Char)) (g : Globals) (o : List (List Char)) :
    pass2 ls g o = pass2 (ls.filter instruction_line) g o := by
  induction ls generalizing g o with
  | nil => rfl
  | cons l ls ih =>
    cases h : instruction_line l with
    | false =>
      rw [List.filter_cons_of_neg (by simp [h]), pass2, pass2_line_not_instruction g l h]
      exact ih g o
    | true =>
      rw [List.filter_cons_of_pos h, pass2, pass2]
      cases pass2_line g l with
      | error e => rfl
      | ok r =>
        obtain ⟨w, g'⟩ := r
        cases w with
        | none => exact ih g' o
        | some w => exact ih g' _

theorem pass2_output (ls : List (List Char)) (g g' : Globals) (o o' : List (List Char))
    (h : pass2 ls g o = .ok (o', g')) :
    ∃ ws, o' = o ++ ws ∧ ws.length = (ls.filter instruction_line).length := by
  induction ls generalizing g o with
  | nil =>
    simp only [pass2, Except.ok.injEq, Prod.mk.injEq] at h
    exact ⟨[], by simp [h.1], rfl⟩
  | cons l ls ih =>
    rw [pass2] at h
    cases hi : instruction_line l with
    | false =>
      rw [pass2_line_not_instruction g l hi] at h
      obtain ⟨ws, h1, h2⟩ := ih g o h
      exact ⟨ws, h1, by rw [List.filter_cons_of_neg (by simp [hi])]; exact h2⟩
    | true =>
      rw [pass2_line_instruction g l hi] at h
      cases he : encode_instruction g (skip_spaces l) with
      | error e => rw [he] at h; simp at h
      | ok r =>
        obtain ⟨w, g1⟩ := r
        rw [he] at h
        obtain ⟨ws, h1, h2⟩ := ih g1 _ h
        refine ⟨w :: ws, by simp [h1], ?_⟩
        rw [List.filter_cons_of_pos hi]
        simp [h2]

theorem map_find_insert_or_assign (m : List (List Char × Nat)) (k t : List Char) (v : Nat) :
    map_find (insert_or_assign m k v) t = if k = t then some v else map_find m t := by
  induction m with
  | nil => simp [insert_or_assign, map_find]
  | cons e m ih =>
    obtain ⟨k', w⟩ := e
    by_cases h : k' = k
    · subst h
      by_cases h2 : k' = t <;> simp [insert_or_assign, map_find, h2]
    · by_cases h2 : k' = t
      · subst h2
        have h3 : ¬ k = k' := fun h' => h h'.symm
        simp [insert_or_assign, map_find, h, h3]
      · simp [insert_or_assign, map_find, h, h2, ih]

theorem pass1_line_eq (m : List (List Char × Nat)) (c : Nat) (l : List Char) :
    pass1_line (m, c) l =
      if peek (skip_spaces l) 0 = '(' then
        (insert_or_assign m (label_of (skip_spaces l)) c, c)
      else if instruction_line l = true then (m, (c + 1) % 65536)
      else (m, c) := by
  have hf := filter_eq_not_instruction_line l
  unfold pass1_line
  by_cases h : peek (skip_spaces l) 0 = '('
  · have hn : not_command '(' = false := by decide
    simp [h, hn]
  · simp only [h, decide_False, Bool.or_false] at hf
    cases hi : instruction_line l <;> simp [hf, hi, h]

theorem instruction_line_of_paren (l : List Char) (h : peek (skip_spaces l) 0 = '(') :
    instruction_line l = false := by
  have hf := filter_eq_not_instruction_line l
  simp only [h, decide_True, Bool.or_true] at hf
  cases hi : instruction_line l
  · rfl
  · rw [hi] at hf; simp at hf

theorem pass1_append (a b : List (List Char)) (st : List (List Char × Nat) × Nat) :
    pass1 (a ++ b) st = pass1 b (pass1 a st) := by
  simp [pass1, List.foldl_append]

theorem pass1_cons (l : List Char) (ls : List (List Char)) (st : List (List Char × Nat) × Nat) :
    pass1 (l :: ls) st = pass1 ls (pass1_line st l) := rfl

theorem pass1_count (ls : List (List Char)) (m : List (List Char × Nat)) (c : Nat) :
    (pass1 ls (m, c)).2 % 65536 = (c + (ls.filter instruction_line).length) % 65536 := by
  induction ls generalizing m c with
  | nil => rfl
  | cons l ls ih =>
    rw [pass1_cons, pass1_line_eq]
    by_cases h : peek (skip_spaces l) 0 = '('
    · rw [if_pos h, ih, List.filter_cons_of_neg (by simp [instruction_line_of_paren l h])]
    · rw [if_neg h]
      cases hi : instruction_line l with
      | false =>
        rw [if_neg (by simp), ih, List.filter_cons_of_neg (by simp [hi])]
      | true =>
        rw [if_pos rfl, ih, List.filter_cons_of_pos hi, List.length_cons]
        omega

theorem pass1_count_lt (ls : List (List Char)) (m : List (List Char × Nat)) (c : Nat)
    (hc : c < 65536) : (pass1 ls (m, c)).2 < 65536 := by
  induction ls generalizing m c with
  | nil => exact hc
  | cons l ls ih =>
    rw [pass1_cons, pass1_line_eq]
    split_ifs
    · exact ih _ _ hc
    · exact ih _ _ (Nat.mod_lt _ (by decide))
    · exact ih _ _ hc

theorem pass1_count_eq (ls : List (List Char)) (m : List (List Char × Nat)) :
    (pass1 ls (m, 0)).2 = (ls.filter instruction_line).length % 65536 := by
  have h1 := pass1_count ls m 0
  have h2 := pass1_count_lt ls m 0 (by decide)
  rw [Nat.mod_eq_of_lt h2] at h1
  simpa using h1

theorem pass1_map_find (ls : List (List Char)) (m : List (List Char × Nat)) (c : Nat)
    (t : List Char) (h : ∀ l ∈ ls, declares l t = false) :
    map_find (pass1 ls (m, c)).1 t = map_find m t := by
  induction ls generalizing m c with
  | nil => rfl
  | cons l ls ih =>
    have hl := h l (List.mem_cons_self _ _)
    have hls := fun l' hl' => h l' (List.mem_cons_of_mem _ hl')
    rw [pass1_cons, pass1_line_eq]
    split_ifs with h1 h2
    · rw [ih _ _ hls, map_find_insert_or_assign]
      have : ¬ label_of (skip_spaces l) = t := by
        intro h3
        simp [declares, h1, h3] at hl
      rw [if_neg this]
    · exact ih _ _ hls
    · exact ih _ _ hls

theorem pass1_map_find_none (ls : List (List Char)) (m : List (List Char × Nat)) (c : Nat)
    (t : List Char) :
    map_find (pass1 ls (m, c)).1 t = none ↔
      map_find m t = none ∧ ∀ l ∈ ls, declares l t = false := by
  induction ls generalizing m c with
  | nil => simp [pass1]
  | cons l ls ih =>
    rw [pass1_cons, pass1_line_eq]
    split_ifs with h1 h2
    · rw [ih, map_find_insert_or_assign]
      by_cases h3 : label_of (skip_spaces l) = t
      · simp [h3, declares, h1]
      · simp [h3, declares, h1]
    · rw [ih]; simp [declares, h1]
    · rw [ih]; simp [declares, h1]

theorem skip_spaces_replicate (s : Nat) (c : Char) (r : List Char) (hc : c ≠ ' ') :
    skip_spaces (List.replicate s ' ' ++ c :: r) = c :: r := by
  induction s with
  | zero => simp [skip_spaces, hc]
  | succ s ih => simp [List.replicate_succ, skip_spaces, ih]

theorem peek_of_drop (p : List Char) (i : Nat) (c : Char) (t : List Char)
    (h : p.drop i = c :: t) : peek p i = c := by
  have h1 : (p.drop i)[0]? = some c := by rw [h]; simp
  rw [List.getElem?_drop] at h1
  simp only [Nat.add_zero] at h1
  simp [peek, List.getD, h1]

theorem drop_succ_of_drop (p : List Char) (i : Nat) (c : Char) (t : List Char)
    (h : p.drop i = c :: t) : p.drop (i + 1) = t := by
  have : p.drop (i + 1) = (p.drop i).drop 1 := by simp [List.drop_drop, Nat.add_comm]
  rw [this, h]
  rfl

theorem label_loop_name (p : List Char) (rest : List Char) :
    ∀ (name : List Char) (n i : Nat) (acc : List Char),
      p.drop i = name ++ ')' :: rest → (∀ c ∈ name, c ≠ '(' ∧ c ≠ ')') → name.length ≤ n →
      label_loop p n i acc = acc ++ name
  | [], n, i, acc, hp, _, _ => by
    have h := peek_of_drop p i ')' rest hp
    cases n with
    | zero => simp [label_loop]
    | succ n => simp [label_loop, h]
  | c :: name, 0, i, acc, _, _, hn => by simp at hn
  | c :: name, n + 1, i, acc, hp, hc, hn => by
    have h := peek_of_drop p i c _ hp
    have hcc := hc c (List.mem_cons_self _ _)
    rw [label_loop, h, if_neg hcc.2, if_pos hcc.1,
      label_loop_name p rest name n (i + 1) (acc ++ [c]) (drop_succ_of_drop p i c _ hp)
        (fun d hd => hc d (List.mem_cons_of_mem _ hd)) (by simpa using hn)]
    simp

theorem c_str_of_no_nul (x : List Char) (h : ∀ c ∈ x, c ≠ NUL) : c_str x = x := by
  unfold c_str
  rw [List.takeWhile_eq_self_iff]
  intro c hc
  simpa using h c hc

theorem declares_label_line (name line : List Char) (hid : identifier name)
    (h : label_line name line) : declares line name = true := by
  obtain ⟨s, rest, rfl⟩ := h
  obtain ⟨_, hlen, hch, _⟩ := hid
  have hp := skip_spaces_replicate s '(' (name ++ ')' :: rest) (by decide)
  have hloop : label_loop ('(' :: (name ++ ')' :: rest)) 64 0 [] = name := by
    rw [label_loop]
    simp only [peek, List.getD_cons_zero]
    rw [if_neg (by decide), if_neg (by simp)]
    rw [label_loop_name ('(' :: (name ++ ')' :: rest)) rest name 63 1 [] rfl
      (fun c hc => ⟨(hch c hc).2.2.1, (hch c hc).2.2.2⟩) hlen]
    rfl
  simp only [declares, hp, label_of, hloop, c_str_of_no_nul name (fun c hc => (hch c hc).2.1)]
  simp [peek]

theorem symbol_of_reference_line (name line : List Char) (hid : identifier name)
    (h : reference_line name line) : symbol_of line = some name := by
  obtain ⟨s, rest, rfl, hend⟩ := h
  obtain ⟨hne, hlen, hch, hdig⟩ := hid
  have hp := skip_spaces_replicate s '@' (name ++ rest) (by decide)
  obtain ⟨c, t, rfl⟩ := List.exists_cons_of_ne_nil hne
  have hc := hch c (List.mem_cons_self _ _)
  have h1 : peek ('@' :: (c :: t ++ rest)) 1 = c := rfl
  have hd : ¬ ('0' ≤ c ∧ c ≤ '9') := hdig
  have htok : scan_s (c :: t ++ rest) = .ok (c :: t) := by
    have hcs : c_str (c :: t ++ rest) = (c :: t) ++ c_str rest := by
      unfold c_str
      rw [List.takeWhile_append_of_pos]
      intro d hd
      simpa using (hch d hd).2.1
    have htw : ((c :: t) ++ c_str rest).takeWhile (fun c => !isspace c) = c :: t := by
      rw [List.takeWhile_append_of_pos]
      · have : (c_str rest).takeWhile (fun c => !isspace c) = [] := by
          cases rest with
          | nil => rfl
          | cons x r =>
            rcases hend with hx | hx
            · unfold c_str
              by_cases hx0 : x = NUL
              · simp [List.takeWhile, hx0]
              · simp [List.takeWhile, hx0, hx]
            · simp [c_str, List.takeWhile, hx]
        rw [this]; simp
      · intro d hd
        simp [(hch d hd).1]
    have hdw : ((c :: t) ++ c_str rest).dropWhile isspace = (c :: t) ++ c_str rest := by
      simp [List.dropWhile, hc.1]
    unfold scan_s
    rw [hcs]
    simp only [hdw, htw]
    have : ¬ (c :: t = [] ∨ 63 < (c :: t).length) := by
      intro h
      rcases h with h | h
      · simp at h
      · omega
    rw [if_neg this]
  unfold symbol_of
  rw [hp]
  simp only [h1, List.drop_one, List.tail_cons, htok]
  simp [peek, hd]

theorem symbol_of_eq_some (l t : List Char) (h : symbol_of l = some t) :
    peek (skip_spaces l) 0 = '@' ∧ ¬ ('0' ≤ peek (skip_spaces l) 1 ∧ peek (skip_spaces l) 1 ≤ '9') ∧
      scan_s ((skip_spaces l).drop 1) = .ok t := by
  unfold symbol_of at h
  simp only at h
  split_ifs at h with hc
  cases hs : scan_s ((skip_spaces l).drop 1) with
  | error e => rw [hs] at h; simp at h
  | ok name =>
    rw [hs] at h
    simp only [Option.some.injEq] at h
    subst h
    exact ⟨hc.1, hc.2, rfl⟩

theorem pass2_line_at (g : Globals) (l : List Char) (h : peek (skip_spaces l) 0 = '@') :
    pass2_line g l =
      match encode_a_instruction g (skip_spaces l) with
      | .error err => .error err
      | .ok (instruction, g') => .ok (some instruction, g') := by
  have hn : (not_command '@' || decide ('@' = '(')) = false := by decide
  unfold pass2_line encode_instruction
  simp only [h, hn, if_true]
  rfl

theorem pass2_line_symbol_known (g : Globals) (l t : List Char) (v : Nat)
    (hs : symbol_of l = some t) (hf : map_find g.variable_map t = some v) :
    pass2_line g l = .ok (some (generate_a_type v), g) := by
  obtain ⟨h0, h1, h2⟩ := symbol_of_eq_some l t hs
  rw [pass2_line_at g l h0]
  unfold encode_a_instruction
  rw [if_neg h1, h2]
  simp only [hf]

theorem pass2_line_symbol_new (g : Globals) (l t : List Char)
    (hs : symbol_of l = some t) (hf : map_find g.variable_map t = none) :
    pass2_line g l = .ok (some (generate_a_type ((16 + g.variable_count) % 65536)),
      { variable_map := insert_or_assign g.variable_map t ((16 + g.variable_count) % 65536),
        variable_count := (g.variable_count + 1) % 65536 }) := by
  obtain ⟨h0, h1, h2⟩ := symbol_of_eq_some l t hs
  rw [pass2_line_at g l h0]
  unfold encode_a_instruction
  rw [if_neg h1, h2]
  simp only [hf]

theorem pass2_line_no_symbol (g g' : Globals) (l : List Char) (w : Option (List Char))
    (hs : symbol_of l = none) (h : pass2_line g l = .ok (w, g')) : g' = g := by
  by_cases h0 : peek (skip_spaces l) 0 = '@'
  · rw [pass2_line_at g l h0] at h
    unfold encode_a_instruction at h
    by_cases h1 : '0' ≤ peek (skip_spaces l) 1 ∧ peek (skip_spaces l) 1 ≤ '9'
    · rw [if_pos h1] at h
      cases hi : scan_i ((skip_spaces l).drop 1) with
      | error e => rw [hi] at h; simp at h
      | ok num =>
        rw [hi] at h
        simp only [Except.ok.injEq, Prod.mk.injEq] at h
        exact h.2.symm
    · rw [if_neg h1] at h
      cases hi : scan_s ((skip_spaces l).drop 1) with
      | error e => rw [hi] at h; simp at h
      | ok name =>
        exfalso
        unfold symbol_of at hs
        simp only [h0, h1, hi] at hs
        simp at hs
  · cases hi : instruction_line l with
    | false =>
      rw [pass2_line_not_instruction g l hi] at h
      simp only [Except.ok.injEq, Prod.mk.injEq] at h
      exact h.2.symm
    | true =>
      rw [pass2_line_instruction g l hi] at h
      unfold encode_instruction at h
      rw [if_neg h0] at h
      cases hc : encode_c_instruction (skip_spaces l) with
      | error e => rw [hc] at h; simp at h
      | ok ins =>
        rw [hc] at h
        simp only [Except.ok.injEq, Prod.mk.injEq] at h
        exact h.2.symm

theorem pass2_snoc (ls : List (List Char)) (l : List Char) (g g' : Globals)
    (o o' : List (List Char)) (h : pass2 (ls ++ [l]) g o = .ok (o', g')) :
    ∃ o1 g1 w, pass2 ls g o = .ok (o1, g1) ∧ pass2_line g1 l = .ok (w, g') ∧
      o' = o1 ++ w.toList := by
  rw [pass2_append] at h
  cases h1 : pass2 ls g o with
  | error e => rw [h1] at h; simp at h
  | ok r =>
    obtain ⟨o1, g1⟩ := r
    rw [h1] at h
    simp only [pass2] at h
    cases h2 : pass2_line g1 l with
    | error e => rw [h2] at h; simp at h
    | ok r2 =>
      obtain ⟨w, g2⟩ := r2
      rw [h2] at h
      cases w with
      | none =>
        simp only [Except.ok.injEq, Prod.mk.injEq] at h
        exact ⟨o1, g1, none, rfl, by rw [← h.2]; exact h2, by simp [h.1]⟩
      | some w =>
        simp only [Except.ok.injEq, Prod.mk.injEq] at h
        exact ⟨o1, g1, some w, rfl, by rw [← h.2]; exact h2, by simp [← h.1]⟩

theorem union_singleton_eq_insert (S : Finset (List Char)) (t : List Char) :
    S ∪ insert t ∅ = insert t S := by
  ext x
  simp [or_comm]

/-- What the second loop does to the globals: bindings stay, the names
bound are those bound before and those referred to, and `variable_count`
counts the new names. -/
theorem pass2_invariant (ls : List (List Char)) (g : Globals) (o : List (List Char)) :
    ∀ (g' : Globals) (o' : List (List Char)), pass2 ls g o = .ok (o', g') →
      (∀ t v, map_find g.variable_map t = some v → map_find g'.variable_map t = some v) ∧
      (∀ t, map_find g'.variable_map t = none ↔
        map_find g.variable_map t = none ∧ t ∉ ls.filterMap symbol_of) ∧
      g'.variable_count % 65536 = (g.variable_count +
        ((ls.filterMap symbol_of).filter
          (fun t => (map_find g.variable_map t).isNone)).toFinset.card) % 65536 := by
  induction ls using List.reverseRecOn with
  | nil =>
    intro g' o' h
    simp only [pass2, Except.ok.injEq, Prod.mk.injEq] at h
    obtain ⟨_, rfl⟩ := h
    simp
  | append_singleton ls l ih =>
    intro g' o' h
    obtain ⟨o1, g1, w, h1, h2, _⟩ := pass2_snoc ls l g g' o o' h
    obtain ⟨ha, hb, hc⟩ := ih g1 o1 h1
    cases hs : symbol_of l with
    | none =>
      have hg := pass2_line_no_symbol g1 g' l w hs h2
      subst hg
      simp only [List.filterMap_append, List.filterMap_cons, hs, List.filterMap_nil,
        List.append_nil]
      exact ⟨ha, hb, hc⟩
    | some t =>
      simp only [List.filterMap_append, List.filterMap_cons, hs, List.filterMap_nil,
        List.filter_append, List.toFinset_append, List.mem_append, List.mem_singleton]
      cases hf : map_find g1.variable_map t with
      | some v =>
        rw [pass2_line_symbol_known g1 l t v hs hf] at h2
        simp only [Except.ok.injEq, Prod.mk.injEq] at h2
        obtain ⟨_, rfl⟩ := h2
        refine ⟨ha, ?_, ?_⟩
        · intro t'
          rw [hb t']
          constructor
          · rintro ⟨h3, h4⟩
            refine ⟨h3, fun h5 => ?_⟩
            rcases h5 with h5 | h5
            · exact h4 h5
            · subst h5
              have := (hb t').2 ⟨h3, h4⟩
              rw [this] at hf; simp at hf
          · rintro ⟨h3, h4⟩
            exact ⟨h3, fun h5 => h4 (Or.inl h5)⟩
        · rw [hc]
          congr 2
          by_cases hk : map_find g.variable_map t = none
          · have hmem : t ∈ ls.filterMap symbol_of := by
              by_contra hn
              have := (hb t).2 ⟨hk, hn⟩
              rw [this] at hf; simp at hf
            simp only [List.filter_cons, hk, Option.isNone_none, if_true, List.filter_nil,
              List.toFinset_cons, List.toFinset_nil]
            rw [union_singleton_eq_insert, Finset.insert_eq_of_mem]
            simp [hmem, hk]
          · have hk2 : (map_find g.variable_map t).isNone = false := by
              cases hm : map_find g.variable_map t with
              | none => exact absurd hm hk
              | some _ => rfl
            simp [List.filter_cons, hk2]
      | none =>
        rw [pass2_line_symbol_new g1 l t hs hf] at h2
        simp only [Except.ok.injEq, Prod.mk.injEq] at h2
        obtain ⟨_, rfl⟩ := h2
        obtain ⟨hk, hnm⟩ := (hb t).1 hf
        refine ⟨?_, ?_, ?_⟩
        · intro t' v hv
          have h3 := ha t' v hv
          simp only [map_find_insert_or_assign]
          by_cases h4 : t = t'
          · subst h4; rw [hf] at h3; simp at h3
          · rw [if_neg h4]; exact h3
        · intro t'
          simp only [map_find_insert_or_assign]
          by_cases h4 : t = t'
          · subst h4; simp
          · rw [if_neg h4, hb t']
            constructor
            · rintro ⟨h5, h6⟩
              exact ⟨h5, fun h7 => h7.elim h6 (fun h8 => h4 h8.symm)⟩
            · rintro ⟨h5, h6⟩
              exact ⟨h5, fun h7 => h6 (Or.inl h7)⟩
        · simp only [List.filter_cons, hk, Option.isNone_none, if_true, List.filter_nil,
            List.toFinset_cons, List.toFinset_nil]
          rw [union_singleton_eq_insert, Finset.card_insert_of_not_mem (by simp [hnm])]
          omega

theorem take_succ_split (pre post : List (List Char)) (l : List Char) :
    (pre ++ l :: post).take (pre.length + 1) = pre ++ [l] := by
  rw [List.take_append]; rfl

theorem take_split (pre post : List (List Char)) (l : List Char) :
    (pre ++ l :: post).take pre.length = pre := by
  rw [List.take_left']; rfl

/-- The run of `parse_file` seen at one line of the file. -/
theorem parse_file_at_line (g g' : Globals) (file : List Char) (pre post : List (List Char))
    (l : List Char) (out : List (List Char))
    (hlines : read_lines file = pre ++ l :: post)
    (hrun : parse_file g file = .ok (out, g')) :
    ∃ o gj w gj', parse_file_upto g file pre.length = .ok (o, gj) ∧
      o.length = (pre.filter instruction_line).length ∧
      pass2_line gj l = .ok (w, gj') ∧
      parse_file_upto g file (pre.length + 1) = .ok (o ++ w.toList, gj') ∧
      (∀ x, w = some x → out[o.length]? = some x) ∧
      (∀ t v, map_find (globals_after_pass1 g file).variable_map t = some v →
        map_find gj.variable_map t = some v) ∧
      (∀ t, map_find gj.variable_map t = none ↔
        map_find (globals_after_pass1 g file).variable_map t = none ∧
          t ∉ pre.filterMap symbol_of) ∧
      gj.variable_count % 65536 = ((globals_after_pass1 g file).variable_count +
        ((pre.filterMap symbol_of).filter
          (fun t => (map_find (globals_after_pass1 g file).variable_map t).isNone)).toFinset.card)
          % 65536 := by
  unfold parse_file at hrun
  unfold parse_file_upto
  rw [hlines] at hrun ⊢
  rw [take_split, take_succ_split]
  rw [pass2_append] at hrun
  cases h1 : pass2 pre (globals_after_pass1 g file) [] with
  | error e => rw [h1] at hrun; simp at hrun
  | ok r =>
    obtain ⟨o, gj⟩ := r
    rw [h1] at hrun
    simp only [pass2] at hrun
    obtain ⟨ws, hws, hlen⟩ := pass2_output pre _ _ _ _ h1
    obtain ⟨ha, hb, hc⟩ := pass2_invariant pre _ _ gj o h1
    simp only [List.nil_append] at hws
    subst hws
    rw [pass2_append, h1]
    simp only [pass2]
    cases h2 : pass2_line gj l with
    | error e => rw [h2] at hrun; simp at hrun
    | ok r2 =>
      obtain ⟨w, gj'⟩ := r2
      rw [h2] at hrun
      refine ⟨o, gj, w, gj', rfl, hlen, h2, ?_, ?_, ha, hb, hc⟩
      · cases w <;> simp
      · intro x hx
        subst hx
        simp only at hrun
        obtain ⟨ws2, hws2, _⟩ := pass2_output post _ _ _ _ hrun
        rw [hws2, List.append_assoc, List.getElem?_append_right (le_refl _)]
        simp

/-! ## Labels, variables and pre-seeded symbols -/

theorem declares_iff (l name : List Char) :
    declares l name = true ↔
      peek (skip_spaces l) 0 = '(' ∧ label_of (skip_spaces l) = name := by
  simp [declares]

theorem pass1_label_bound (m : List (List Char × Nat)) (before after : List (List Char))
    (decl L : List Char) (hd : declares decl L = true)
    (hafter : ∀ l ∈ after, declares l L = false) :
    map_find (pass1 (before ++ decl :: after) (m, 0)).1 L
      = some ((before.filter instruction_line).length % 65536) := by
  obtain ⟨hp, hl⟩ := (declares_iff decl L).1 hd
  rw [pass1_append, pass1_cons]
  have hc := pass1_count_eq before m
  cases hst : pass1 before (m, 0) with
  | mk m1 c1 =>
    rw [hst] at hc
    simp only at hc
    rw [pass1_line_eq, if_pos hp, pass1_map_find _ _ _ _ hafter, map_find_insert_or_assign,
      if_pos hl, hc]

theorem label_resolution_mod (g g' : Globals) (file L decl : List Char)
    (before after out : List (List Char))
    (hL : identifier L) (hlines : read_lines file = before ++ decl :: after)
    (hdecl : label_line L decl)
    (hafter : ∀ l ∈ after, declares l L = false)
    (hrun : parse_file g file = .ok (out, g')) :
    parse_file_upto g file (before.length + 1) = parse_file_upto g file before.length ∧
    command_count_after g file (before.length + 1) = command_count_after g file before.length ∧
    ∀ pre l post, read_lines file = pre ++ l :: post → reference_line L l →
      out[(pre.filter instruction_line).length]?
        = some (generate_a_type ((before.filter instruction_line).length % 65536)) ∧
      ∃ o gj, parse_file_upto g file pre.length = .ok (o, gj) ∧
        parse_file_upto g file (pre.length + 1)
          = .ok (o ++ [generate_a_type ((before.filter instruction_line).length % 65536)], gj) := by
  have hd := declares_label_line L decl hL hdecl
  obtain ⟨hp, _⟩ := (declares_iff decl L).1 hd
  have hni := instruction_line_of_paren decl hp
  refine ⟨?_, ?_, ?_⟩
  · unfold parse_file_upto
    rw [hlines, take_split, take_succ_split, pass2_append]
    cases pass2 before (globals_after_pass1 g file) [] with
    | error e => rfl
    | ok r =>
      obtain ⟨o, gj⟩ := r
      simp only [pass2, pass2_line_not_instruction gj decl hni]
  · unfold command_count_after
    rw [hlines, take_split, take_succ_split, pass1_append]
    cases hst : pass1 before (g.variable_map, 0) with
    | mk m1 c1 =>
      show (pass1_line (m1, c1) decl).2 = c1
      rw [pass1_line_eq, if_pos hp]
  · intro pre l post hl href
    obtain ⟨o, gj, w, gj', h1, h2, h3, h4, h5, ha, _, _⟩ :=
      parse_file_at_line g g' file pre post l out hl hrun
    have hmap : map_find (globals_after_pass1 g file).variable_map L
        = some ((before.filter instruction_line).length % 65536) := by
      unfold globals_after_pass1
      rw [hlines]
      exact pass1_label_bound _ before after decl L hd hafter
    have hstep := pass2_line_symbol_known gj l L _ (symbol_of_reference_line L l hL href)
      (ha L _ hmap)
    rw [hstep] at h3
    simp only [Except.ok.injEq, Prod.mk.injEq] at h3
    obtain ⟨rfl, rfl⟩ := h3
    refine ⟨?_, o, gj, h1, h4⟩
    rw [← h2]
    exact h5 _ rfl


/-- C5. Let the identifier `L` be declared by the line `decl`, which is
`(L)`, and by no line behind it, and let `k` be the number of instruction
lines in front of `decl`.  In a run of `parse_file` that succeeds, the
declaration pushes no instruction and leaves `command_count` as it is, and
every line `@L`, in front of the declaration or behind it, is encoded as
`generate_a_type k` at its place in the output and leaves the globals as
they are: no variable is allocated.  (`command_count` is `k` modulo `2^16`,
and the word has the low 15 bits of `k`.) -/
theorem C5_label_resolution (g g' : Globals) (file L decl : List Char)
    (before after out : List (List Char))
    (hL : identifier L) (hlines : read_lines file = before ++ decl :: after)
    (hdecl : label_line L decl)
    (hafter : ∀ l ∈ after, declares l L = false)
    (hrun : parse_file g file = .ok (out, g')) :
    parse_file_upto g file (before.length + 1) = parse_file_upto g file before.length ∧
    command_count_after g file (before.length + 1) = command_count_after g file before.length ∧
    ∀ pre l post, read_lines file = pre ++ l :: post → reference_line L l →
      out[(pre.filter instruction_line).length]?
        = some (generate_a_type (before.filter instruction_line).length) ∧
      ∃ o gj, parse_file_upto g file pre.length = .ok (o, gj) ∧
        parse_file_upto g file (pre.length + 1)
          = .ok (o ++ [generate_a_type (before.filter instruction_line).length], gj) := by
  have h := label_resolution_mod g g' file L decl before after out hL hlines hdecl hafter hrun
  simp only [generate_a_type_mod] at h
  exact h

theorem is_variable_eq (g : Globals) (file t : List Char)
    (hg : g.variable_map = variable_map_init) :
    is_variable (read_lines file) t
      = (map_find (globals_after_pass1 g file).variable_map t).isNone := by
  have h := pass1_map_find_none (read_lines file) variable_map_init 0 t
  unfold globals_after_pass1
  rw [hg]
  cases hm : map_find (pass1 (read_lines file) (variable_map_init, 0)).1 t with
  | none =>
    obtain ⟨h1, h2⟩ := h.1 hm
    simp only [is_variable, h1, Option.isNone_none, Bool.true_and, List.all_eq_true,
      Bool.not_eq_true']
    exact h2
  | some v =>
    have h3 : ¬ (map_find variable_map_init t = none ∧
        ∀ l ∈ read_lines file, declares l t = false) := fun h4 => by
      rw [h.2 h4] at hm; simp at hm
    simp only [Option.isNone_some]
    cases hv : is_variable (read_lines file) t with
    | false => rfl
    | true =>
      exfalso
      apply h3
      simp only [is_variable, Bool.and_eq_true, List.all_eq_true, Bool.not_eq_true',
        Option.isNone_iff_eq_none] at hv
      exact hv

theorem later_line_split (pre pre' post post' : List (List Char)) (l l' : List Char)
    (h : pre ++ l :: post = pre' ++ l' :: post') (hlt : pre.length < pre'.length) :
    ∃ mid, pre' = (pre ++ [l]) ++ mid := by
  rcases List.append_eq_append_iff.1 h with ⟨a, h1, h2⟩ | ⟨c, h1, _⟩
  · cases a with
    | nil => rw [h1] at hlt; simp at hlt
    | cons x mid =>
      simp only [List.cons_append, List.cons.injEq] at h2
      exact ⟨mid, by rw [h1, h2.1]; simp⟩
  · rw [h1] at hlt; simp at hlt

theorem variable_allocation_mod (g' : Globals) (file x l : List Char)
    (pre post out : List (List Char))
    (hx : identifier x) (hvar : is_variable (read_lines file) x = true)
    (hlines : read_lines file = pre ++ l :: post) (hl : reference_line x l)
    (hfirst : ∀ l' ∈ pre, symbol_of l' ≠ some x)
    (hrun : parse_file globals_init file = .ok (out, g')) :
    out[(pre.filter instruction_line).length]?
      = some (generate_a_type ((16 + (variables_used (read_lines file) pre).length) % 65536)) ∧
    ∀ pre' l' post', read_lines file = pre' ++ l' :: post' → pre.length < pre'.length →
      reference_line x l' →
      out[(pre'.filter instruction_line).length]?
        = some (generate_a_type
            ((16 + (variables_used (read_lines file) pre).length) % 65536)) ∧
      ∃ o gj, parse_file_upto globals_init file pre'.length = .ok (o, gj) ∧
        parse_file_upto globals_init file (pre'.length + 1)
          = .ok (o ++ [generate_a_type
              ((16 + (variables_used (read_lines file) pre).length) % 65536)], gj) := by
  obtain ⟨o, gj, w, gj', h1, h2, h3, h4, h5, _, hb, hc⟩ :=
    parse_file_at_line globals_init g' file pre post l out hlines hrun
  have hsym := symbol_of_reference_line x l hx hl
  have hnew : map_find gj.variable_map x = none := by
    rw [hb x]
    refine ⟨?_, ?_⟩
    · have := is_variable_eq globals_init file x rfl
      rw [hvar] at this
      exact Option.isNone_iff_eq_none.1 this.symm
    · intro hmem
      obtain ⟨l', hl', hs⟩ := List.mem_filterMap.1 hmem
      exact hfirst l' hl' hs
  have hcount : (16 + gj.variable_count) % 65536
      = (16 + (variables_used (read_lines file) pre).length) % 65536 := by
    have hfun : (fun t => (map_find (globals_after_pass1 globals_init file).variable_map t).isNone)
        = is_variable (read_lines file) := by
      funext t
      exact (is_variable_eq globals_init file t rfl).symm
    rw [hfun, List.card_toFinset] at hc
    have h0 : (globals_after_pass1 globals_init file).variable_count = 0 := rfl
    rw [h0] at hc
    unfold variables_used
    omega
  have hstep := pass2_line_symbol_new gj l x hsym hnew
  rw [hstep, hcount] at h3
  simp only [Except.ok.injEq, Prod.mk.injEq] at h3
  obtain ⟨hw, hg⟩ := h3
  refine ⟨?_, ?_⟩
  · rw [← h2]
    exact h5 _ hw.symm
  · intro pre' l' post' hlines' hlt hl'
    obtain ⟨o', gk, w', gk', k1, k2, k3, k4, k5, _, _, _⟩ :=
      parse_file_at_line globals_init g' file pre' post' l' out hlines' hrun
    obtain ⟨mid, hmid⟩ := later_line_split pre pre' post post' l l' (hlines ▸ hlines') hlt
    have hbound : map_find gk.variable_map x
        = some ((16 + (variables_used (read_lines file) pre).length) % 65536) := by
      unfold parse_file_upto at k1 h4
      rw [hlines', take_split] at k1
      rw [hlines, take_succ_split] at h4
      rw [hmid, pass2_append, h4] at k1
      simp only at k1
      obtain ⟨ha, _, _⟩ := pass2_invariant mid _ _ gk o' k1
      apply ha
      rw [← hg]
      simp only
      rw [map_find_insert_or_assign, if_pos rfl]
    have hstep' := pass2_line_symbol_known gk l' x _ (symbol_of_reference_line x l' hx hl') hbound
    rw [hstep'] at k3
    simp only [Except.ok.injEq, Prod.mk.injEq] at k3
    obtain ⟨rfl, rfl⟩ := k3
    refine ⟨?_, o', gk, k1, k4⟩
    rw [← k2]
    exact k5 _ rfl

/-- C6. Let the identifier `x` be neither pre-seeded nor declared as a label
in the source, and let `l` be the first line that refers to `x`, `m` the
number of distinct variables that the lines in front of `l` refer to.  In a
run of `parse_file` from the initial globals that succeeds, `l` is encoded as
`generate_a_type (16 + m)`, and so is every later line `@x`, which leaves the
globals as they are. -/
theorem C6_variable_allocation (g' : Globals) (file x l : List Char)
    (pre post out : List (List Char))
    (hx : identifier x) (hvar : is_variable (read_lines file) x = true)
    (hlines : read_lines file = pre ++ l :: post) (hl : reference_line x l)
    (hfirst : ∀ l' ∈ pre, symbol_of l' ≠ some x)
    (hrun : parse_file globals_init file = .ok (out, g')) :
    out[(pre.filter instruction_line).length]?
      = some (generate_a_type (16 + (variables_used (read_lines file) pre).length)) ∧
    ∀ pre' l' post', read_lines file = pre' ++ l' :: post' → pre.length < pre'.length →
      reference_line x l' →
      out[(pre'.filter instruction_line).length]?
        = some (generate_a_type (16 + (variables_used (read_lines file) pre).length)) ∧
      ∃ o gj, parse_file_upto globals_init file pre'.length = .ok (o, gj) ∧
        parse_file_upto globals_init file (pre'.length + 1)
          = .ok (o ++ [generate_a_type (16 + (variables_used (read_lines file) pre).length)], gj) := by
  have h := variable_allocation_mod g' file x l pre post out hx hvar hlines hl hfirst hrun
  simp only [generate_a_type_mod] at h
  exact h

set_option maxRecDepth 100000 in
theorem spec_preseeded_names : spec_preseeded.length = 23 ∧ ∀ e ∈ spec_preseeded,
    identifier e.1 ∧ map_find variable_map_init e.1 = some e.2 := by
  decide

/-- C9. In a source without label declarations, assembled from the initial
globals, a line `@name` for one of the 23 pre-seeded names of the
specification is encoded with the address listed there and leaves the globals
as they are, and
the first line that refers to a name that is not pre-seeded is encoded with
address 16. -/
theorem C9_preseeded_symbols (g' : Globals) (file : List Char) (out : List (List Char))
    (hnolabel : ∀ l ∈ read_lines file, peek (skip_spaces l) 0 ≠ '(')
    (hrun : parse_file globals_init file = .ok (out, g')) :
    (∀ name addr pre l post, (name, addr) ∈ spec_preseeded →
      read_lines file = pre ++ l :: post → reference_line name l →
      out[(pre.filter instruction_line).length]? = some (generate_a_type addr) ∧
      ∃ o gj, parse_file_upto globals_init file pre.length = .ok (o, gj) ∧
        parse_file_upto globals_init file (pre.length + 1)
          = .ok (o ++ [generate_a_type addr], gj)) ∧
    (∀ x pre l post, identifier x → map_find variable_map_init x = none →
      read_lines file = pre ++ l :: post → reference_line x l →
      (∀ l' ∈ pre, ∀ t, symbol_of l' = some t → map_find variable_map_init t ≠ none) →
      out[(pre.filter instruction_line).length]? = some (generate_a_type 16)) := by
  have hmap : ∀ t, map_find (globals_after_pass1 globals_init file).variable_map t
      = map_find variable_map_init t := by
    intro t
    unfold globals_after_pass1
    apply pass1_map_find
    intro l hl
    simp [declares, hnolabel l hl]
  refine ⟨?_, ?_⟩
  · intro name addr pre l post hmem hlines hl
    obtain ⟨hid, hfind⟩ := spec_preseeded_names.2 (name, addr) hmem
    obtain ⟨o, gj, w, gj', h1, h2, h3, h4, h5, ha, _, _⟩ :=
      parse_file_at_line globals_init g' file pre post l out hlines hrun
    have hstep := pass2_line_symbol_known gj l name addr (symbol_of_reference_line name l hid hl)
      (ha name addr (by rw [hmap]; exact hfind))
    rw [hstep] at h3
    simp only [Except.ok.injEq, Prod.mk.injEq] at h3
    obtain ⟨rfl, rfl⟩ := h3
    refine ⟨?_, o, gj, h1, h4⟩
    rw [← h2]
    exact h5 _ rfl
  · intro x pre l post hid hx hlines hl hpre
    obtain ⟨o, gj, w, gj', h1, h2, h3, h4, h5, _, hb, hc⟩ :=
      parse_file_at_line globals_init g' file pre post l out hlines hrun
    have hnew : map_find gj.variable_map x = none := by
      rw [hb x, hmap]
      refine ⟨hx, fun hmem => ?_⟩
      obtain ⟨l', hl', hs⟩ := List.mem_filterMap.1 hmem
      exact hpre l' hl' x hs hx
    have hnil : (pre.filterMap symbol_of).filter
        (fun t => (map_find (globals_after_pass1 globals_init file).variable_map t).isNone)
          = [] := by
      rw [List.filter_eq_nil_iff]
      intro t ht
      obtain ⟨l', hl', hs⟩ := List.mem_filterMap.1 ht
      rw [hmap]
      have := hpre l' hl' t hs
      cases hm : map_find variable_map_init t with
      | none => exact absurd hm this
      | some v => simp
    rw [hnil] at hc
    have h0 : (globals_after_pass1 globals_init file).variable_count = 0 := rfl
    rw [h0] at hc
    simp only [List.toFinset_nil, Finset.card_empty, Nat.add_zero, Nat.zero_mod] at hc
    have h16 : (16 + gj.variable_count) % 65536 = 16 := by omega
    have hstep := pass2_line_symbol_new gj l x (symbol_of_reference_line x l hid hl) hnew
    rw [hstep, h16] at h3
    simp only [Except.ok.injEq, Prod.mk.injEq] at h3
    rw [← h2]
    exact h5 _ h3.1.symm

/-! ## The output sequence -/

theorem filter_instruction_line_take (ls : List (List Char)) (i : Nat) :
    (((ls.filter instruction_line).take i).filter instruction_line)
      = (ls.filter instruction_line).take i := by
  rw [List.filter_eq_self]
  intro l hl
  exact (List.mem_filter.1 (List.mem_of_mem_take hl)).2

/-- C7, amended. In a run of `parse_file` that succeeds, the output has one
word for each instruction line, the `i`-th word is the instruction generated
for the `i`-th instruction line in the globals left by the lines in front of
it, lines that are not instruction lines push nothing, and the final value of
`command_count` is the length of the output modulo `2^16`: the length
itself when that is less than 65536. -/
theorem C7_output_words (g g' : Globals) (file : List Char) (out : List (List Char))
    (hrun : parse_file g file = .ok (out, g')) :
    out.length = ((read_lines file).filter instruction_line).length ∧
    command_count_after g file (read_lines file).length = out.length % 65536 ∧
    (out.length < 65536 → command_count_after g file (read_lines file).length = out.length) ∧
    (∀ l ∈ read_lines file, instruction_line l = false →
      ∀ gj, pass2_line gj l = .ok (none, gj)) ∧
    (∀ i l, ((read_lines file).filter instruction_line)[i]? = some l →
      ∃ o gi gi' w,
        pass2 (((read_lines file).filter instruction_line).take i)
          (globals_after_pass1 g file) [] = .ok (o, gi) ∧
        o.length = i ∧ encode_instruction gi (skip_spaces l) = .ok (w, gi') ∧
        out[i]? = some w) := by
  unfold parse_file at hrun
  obtain ⟨ws, hws, hlen⟩ := pass2_output _ _ _ _ _ hrun
  simp only [List.nil_append] at hws
  subst hws
  have hcount : command_count_after g file (read_lines file).length = out.length % 65536 := by
    unfold command_count_after
    rw [List.take_length, pass1_count_eq, hlen]
  refine ⟨hlen, hcount, fun hlt => by rw [hcount, Nat.mod_eq_of_lt hlt],
    fun l _ hl gj => pass2_line_not_instruction gj l hl, ?_⟩
  · intro i l hi
    rw [pass2_filter] at hrun
    have hlt : i < ((read_lines file).filter instruction_line).length := by
      by_contra hge
      rw [List.getElem?_eq_none (by omega)] at hi
      simp at hi
    have hget : ((read_lines file).filter instruction_line)[i] = l := by
      rw [List.getElem?_eq_getElem hlt] at hi
      simpa using hi
    have hsplit : (read_lines file).filter instruction_line
        = ((read_lines file).filter instruction_line).take i
          ++ l :: ((read_lines file).filter instruction_line).drop (i + 1) := by
      rw [← hget, ← List.drop_eq_getElem_cons hlt, List.take_append_drop]
    have hil : instruction_line l = true := by
      rw [← hget]
      exact (List.mem_filter.1 (List.getElem_mem _)).2
    rw [hsplit, pass2_append] at hrun
    cases h1 : pass2 (((read_lines file).filter instruction_line).take i)
        (globals_after_pass1 g file) [] with
    | error e => rw [h1] at hrun; simp at hrun
    | ok r =>
      obtain ⟨o, gi⟩ := r
      rw [h1] at hrun
      simp only [pass2] at hrun
      obtain ⟨ws1, hws1, hlen1⟩ := pass2_output _ _ _ _ _ h1
      simp only [List.nil_append] at hws1
      subst hws1
      rw [filter_instruction_line_take, List.length_take, Nat.min_eq_left (le_of_lt hlt)] at hlen1
      rw [pass2_line_instruction gi l hil] at hrun
      cases h2 : encode_instruction gi (skip_spaces l) with
      | error e => rw [h2] at hrun; simp at hrun
      | ok r2 =>
        obtain ⟨w, gi'⟩ := r2
        rw [h2] at hrun
        simp only at hrun
        obtain ⟨ws2, hws2, _⟩ := pass2_output _ _ _ _ _ hrun
        refine ⟨o, gi, gi', w, rfl, hlen1, h2, ?_⟩
        rw [hws2, List.append_assoc, List.getElem?_append_right (le_of_eq hlen1), hlen1]
        simp


/-! ## A source that makes `command_count` wrap -/

theorem read_lines_aux_jump_line (rest : List Char) :
    read_lines_aux 128 (['0', ';', 'J', 'M', 'P', '\n'] ++ rest) []
      = ['0', ';', 'J', 'M', 'P', '\n'] :: read_lines_aux 128 rest [] := by
  simp [read_lines_aux]

theorem read_lines_replicate (n : Nat) :
    read_lines (List.replicate n ['0', ';', 'J', 'M', 'P', '\n']).flatten
      = List.replicate n ['0', ';', 'J', 'M', 'P', '\n'] := by
  unfold read_lines
  induction n with
  | zero => rfl
  | succ n ih =>
    rw [List.replicate_succ, List.flatten_cons, read_lines_aux_jump_line, ih]

theorem pass2_line_jump_line (g : Globals) :
    pass2_line g ['0', ';', 'J', 'M', 'P', '\n']
      = .ok (some ['1', '1', '1', '0', '1', '0', '1', '0', '1', '0', '0', '0', '0', '1', '1', '1'],
          g) := by
  have h : encode_c_instruction ['0', ';', 'J', 'M', 'P', '\n']
      = .ok ['1', '1', '1', '0', '1', '0', '1', '0', '1', '0', '0', '0', '0', '1', '1', '1'] := by
    decide
  rw [pass2_line_instruction g _ (by decide)]
  have hs : skip_spaces ['0', ';', 'J', 'M', 'P', '\n'] = ['0', ';', 'J', 'M', 'P', '\n'] := by
    decide
  rw [hs]
  unfold encode_instruction
  rw [if_neg (by decide), h]

theorem pass2_replicate (n : Nat) (g : Globals) (o : List (List Char)) :
    ∃ o', pass2 (List.replicate n ['0', ';', 'J', 'M', 'P', '\n']) g o = .ok (o', g) ∧
      o'.length = o.length + n := by
  induction n generalizing o with
  | zero => exact ⟨o, rfl, rfl⟩
  | succ n ih =>
    obtain ⟨o', h1, h2⟩ := ih (o ++ [['1', '1', '1', '0', '1', '0', '1', '0', '1', '0', '0', '0',
      '0', '1', '1', '1']])
    refine ⟨o', ?_, ?_⟩
    · rw [List.replicate_succ, pass2, pass2_line_jump_line]
      exact h1
    · rw [h2, List.length_append, List.length_singleton]
      omega

theorem filter_replicate_jump_line (n : Nat) :
    (List.replicate n ['0', ';', 'J', 'M', 'P', '\n']).filter instruction_line
      = List.replicate n ['0', ';', 'J', 'M', 'P', '\n'] := by
  rw [List.filter_eq_self]
  intro l hl
  rw [List.eq_of_mem_replicate hl]
  decide

theorem read_lines_long_source :
    read_lines long_source = List.replicate 65536 ['0', ';', 'J', 'M', 'P', '\n'] := by
  unfold long_source
  exact read_lines_replicate 65536

theorem command_count_replicate (g : Globals) (file : List Char) (n : Nat)
    (h : read_lines file = List.replicate n ['0', ';', 'J', 'M', 'P', '\n']) :
    command_count_after g file (read_lines file).length = n % 65536 := by
  unfold command_count_after
  rw [List.take_length, pass1_count_eq, h, filter_replicate_jump_line, List.length_replicate]

/-- C7 as stated fails on a source of 65536 instruction lines: the output has
65536 words and the 16-bit `command_count` is 0 at the end of the first
loop. -/
theorem C7_counter_wraps :
    ∃ out g', parse_file globals_init long_source = .ok (out, g') ∧ out.length = 65536 ∧
      command_count_after globals_init long_source (read_lines long_source).length = 0 := by
  obtain ⟨o', h1, h2⟩ := pass2_replicate 65536 (globals_after_pass1 globals_init long_source) []
  refine ⟨o', globals_after_pass1 globals_init long_source, ?_, ?_, ?_⟩
  · unfold parse_file
    rw [read_lines_long_source]
    exact h1
  · rw [h2, List.length_nil, Nat.zero_add]
  · rw [command_count_replicate globals_init long_source 65536 read_lines_long_source,
      Nat.mod_self]

/-! ## Runs on the example sources -/

set_option maxRecDepth 1000000 in
/-- C5 at the source `@L`, `(L)`, `@L`. -/
theorem C5_label_resolution_witness :
    parse_file_upto globals_init label_example 2 = parse_file_upto globals_init label_example 1 ∧
    command_count_after globals_init label_example 2
      = command_count_after globals_init label_example 1 ∧
    ∀ pre l post, read_lines label_example = pre ++ l :: post → reference_line ['L'] l →
      [generate_a_type 1, generate_a_type 1][(pre.filter instruction_line).length]?
        = some (generate_a_type 1) ∧
      ∃ o gj, parse_file_upto globals_init label_example pre.length = .ok (o, gj) ∧
        parse_file_upto globals_init label_example (pre.length + 1)
          = .ok (o ++ [generate_a_type 1], gj) :=
  C5_label_resolution globals_init
    { variable_map := insert_or_assign variable_map_init ['L'] 1, variable_count := 0 }
    label_example ['L'] "(L)\n".toList ["@L\n".toList] ["@L\n".toList]
    [generate_a_type 1, generate_a_type 1] (by decide) (by decide) ⟨0, ['\n'], rfl⟩
    (by decide) (by decide)

set_option maxRecDepth 1000000 in
/-- C6 at the source `@i`, `@SP`, `@j`, `@i` and the variable `j`. -/
theorem C6_variable_allocation_witness :
    [generate_a_type 16, generate_a_type 0, generate_a_type 17, generate_a_type 16][
        (["@i\n".toList, "@SP\n".toList].filter instruction_line).length]?
      = some (generate_a_type (16 + (variables_used (read_lines variable_example)
          ["@i\n".toList, "@SP\n".toList]).length)) ∧
    (variables_used (read_lines variable_example) ["@i\n".toList, "@SP\n".toList]).length = 1 :=
  ⟨(C6_variable_allocation
    { variable_map := insert_or_assign (insert_or_assign variable_map_init ['i'] 16) ['j'] 17,
      variable_count := 2 }
    variable_example ['j'] "@j\n".toList ["@i\n".toList, "@SP\n".toList] ["@i\n".toList]
    [generate_a_type 16, generate_a_type 0, generate_a_type 17, generate_a_type 16]
    (by decide) (by decide) (by decide) ⟨0, ['\n'], rfl, Or.inl (by decide)⟩
    (by decide) (by decide)).1, by decide⟩

set_option maxRecDepth 1000000 in
/-- C8. The six-line example of the specification is assembled from the
initial globals to the six words of the specification, with newlines as well
as with carriage returns and newlines as line ends. -/
theorem C8_example :
    parse_file globals_init example_source = .ok (example_words, globals_init) ∧
    parse_file globals_init example_source_crlf = .ok (example_words, globals_init) := by
  decide

set_option maxRecDepth 1000000 in
/-- C7, amended, at the six-line example. -/
theorem C7_output_words_witness :
    parse_file globals_init example_source = .ok (example_words, globals_init) ∧
    example_words.length = ((read_lines example_source).filter instruction_line).length ∧
    command_count_after globals_init example_source (read_lines example_source).length
      = example_words.length % 65536 :=
  ⟨by decide,
   (C7_output_words globals_init globals_init example_source example_words (by decide)).1,
   (C7_output_words globals_init globals_init example_source example_words (by decide)).2.1⟩

set_option maxRecDepth 1000000 in
/-- C9 at the source `@SP`, `@x`, `@KBD`. -/
theorem C9_preseeded_symbols_witness :
    [generate_a_type 0, generate_a_type 16, generate_a_type 24576][
        (([] : List (List Char)).filter instruction_line).length]? = some (generate_a_type 0) ∧
    [generate_a_type 0, generate_a_type 16, generate_a_type 24576][
        (["@SP\n".toList].filter instruction_line).length]? = some (generate_a_type 16) :=
  ⟨((C9_preseeded_symbols
      { variable_map := insert_or_assign variable_map_init ['x'] 16, variable_count := 1 }
      preseeded_example [generate_a_type 0, generate_a_type 16, generate_a_type 24576]
      (by decide) (by decide)).1 ['S', 'P'] 0 [] "@SP\n".toList
        ["@x\n".toList, "@KBD\n".toList] (by decide) (by decide)
        ⟨0, ['\n'], rfl, Or.inl (by decide)⟩).1,
   (C9_preseeded_symbols
      { variable_map := insert_or_assign variable_map_init ['x'] 16, variable_count := 1 }
      preseeded_example [generate_a_type 0, generate_a_type 16, generate_a_type 24576]
      (by decide) (by decide)).2 ['x'] ["@SP\n".toList] "@x\n".toList ["@KBD\n".toList]
        (by decide) (by decide) (by decide) ⟨0, ['\n'], rfl, Or.inl (by decide)⟩ (by decide)⟩

/-! ## Exact match in the two tables -/

theorem char_toNat_inj (a b : Char) (h : a.toNat = b.toNat) : a = b := by
  apply Char.ext
  apply UInt32.ext
  exact h

theorem strncmp_swap (n : Nat) : ∀ s1 s2 : List Char, strncmp s2 s1 n = - strncmp s1 s2 n := by
  induction n with
  | zero => intro s1 s2; simp [strncmp]
  | succ n ih =>
    intro s1 s2
    simp only [strncmp]
    generalize peek s1 0 = c1
    generalize peek s2 0 = c2
    by_cases h : c1 = c2
    · subst h
      by_cases h0 : c1 = NUL
      · simp [h0]
      · simp only [ne_eq, not_true_eq_false, if_false, h0]
        exact ih _ _
    · have h' : ¬ c2 = c1 := fun e => h e.symm
      simp only [ne_eq, h, h', not_false_eq_true, if_true]
      omega

theorem strncmp_three (a b c x y z : Char) (ha : a ≠ NUL) (hb : b ≠ NUL)
    (h : strncmp [a, b, c] [x, y, z] 3 = 0) : a = x ∧ b = y ∧ c = z := by
  have sub_ne : ∀ u v : Char, u ≠ v → (u.toNat : Int) - (v.toNat : Int) ≠ 0 := by
    intro u v huv h0
    exact huv (char_toNat_inj u v (by omega))
  simp only [strncmp, peek, List.getD_cons_zero, List.tail_cons, ne_eq] at h
  by_cases h1 : a = x
  · subst h1
    simp only [not_true_eq_false, if_false, ha] at h
    by_cases h2 : b = y
    · subst h2
      simp only [not_true_eq_false, if_false, hb] at h
      by_cases h3 : c = z
      · exact ⟨rfl, rfl, h3⟩
      · simp only [h3, not_false_eq_true, if_true] at h
        exact absurd h (sub_ne c z h3)
    · simp only [h2, not_false_eq_true, if_true] at h
      exact absurd h (sub_ne b y h2)
  · simp only [h1, not_false_eq_true, if_true] at h
    exact absurd h (sub_ne a x h1)

theorem map_equiv_three (k q : List Char) (hk : k.length = 3) (hq : q.length = 3)
    (hnul : ∀ c ∈ k, c ≠ NUL) (h : map_equiv (string_comparison 3) k q = true) : k = q := by
  match k, hk, q, hq with
  | [a, b, c], _, [x, y, z], _ =>
    have h1 : strncmp [a, b, c] [x, y, z] 3 = 0 := by
      have hs := strncmp_swap 3 [a, b, c] [x, y, z]
      simp only [map_equiv, string_comparison, Bool.and_eq_true, Bool.not_eq_true',
        decide_eq_false_iff_not] at h
      omega
    obtain ⟨r1, r2, r3⟩ := strncmp_three a b c x y z (hnul a (by simp)) (hnul b (by simp)) h1
    rw [r1, r2, r3]

theorem map_at_exact (m : List (List Char × List Char)) (q v : List Char)
    (hm : ∀ e ∈ m, e.1.length = 3 ∧ ∀ c ∈ e.1, c ≠ NUL) (hq : q.length = 3)
    (h : map_at (string_comparison 3) m q = .ok v) : (q, v) ∈ m := by
  unfold map_at at h
  cases hf : m.find? (fun e => map_equiv (string_comparison 3) e.1 q) with
  | none => rw [hf] at h; simp at h
  | some e =>
    rw [hf] at h
    simp only [Except.ok.injEq] at h
    have hmem := List.mem_of_find?_eq_some hf
    have hp := List.find?_some hf
    have := map_equiv_three e.1 q (hm e hmem).1 hq (hm e hmem).2 hp
    rw [← this, ← h]
    exact hmem

set_option maxRecDepth 100000 in
theorem alu_inputs_eq : alu_inputs = alu_inputs_init := by decide

set_option maxRecDepth 100000 in
theorem jump_inputs_eq : jump_inputs = jump_inputs_init := by decide

set_option maxRecDepth 100000 in
theorem alu_inputs_keys : ∀ e ∈ alu_inputs,
    (e.1.length = 3 ∧ ∀ c ∈ e.1, c ≠ NUL) ∧ e.1.count 'A' ≤ 1 ∧ e.2.length = 6 := by
  decide

set_option maxRecDepth 100000 in
theorem jump_inputs_keys : ∀ e ∈ jump_inputs,
    (e.1.length = 3 ∧ ∀ c ∈ e.1, c ≠ NUL) ∧ 'A' ∉ e.1 ∧ e.2.length = 3 := by
  decide

theorem alu_lookup_ok (q v : List Char) (hq : q.length = 3)
    (h : map_at (string_comparison 3) alu_inputs q = .ok v) :
    q.count 'A' ≤ 1 ∧ v.length = 6 := by
  have hmem := map_at_exact alu_inputs q v (fun e he => (alu_inputs_keys e he).1) hq h
  exact (alu_inputs_keys _ hmem).2

theorem jump_lookup_ok (q v : List Char) (hq : q.length = 3)
    (h : map_at (string_comparison 3) jump_inputs q = .ok v) :
    'A' ∉ q ∧ v.length = 3 := by
  have hmem := map_at_exact jump_inputs q v (fun e he => (jump_inputs_keys e he).1) hq h
  exact (jump_inputs_keys _ hmem).2

/-! ## `A` and `M` in the expression -/

theorem strchr_subst (c : Char) (hA : c ≠ 'A') (hM : c ≠ 'M') (post : List Char) :
    ∀ pre : List Char, strchr (pre ++ 'M' :: post) c = strchr (pre ++ 'A' :: post) c
  | [] => by
    simp only [List.nil_append, strchr]
    rw [if_neg (fun h => hM h.symm), if_neg (by decide), if_neg (fun h => hA h.symm),
      if_neg (by decide)]
  | x :: pre => by
    rw [List.cons_append, List.cons_append, strchr, strchr, strchr_subst c hA hM post pre]

theorem drop_subst (pre post : List Char) (k : Nat) :
    ((pre ++ 'M' :: post).drop k = (pre ++ 'A' :: post).drop k) ∨
    (∃ y, (pre ++ 'M' :: post).drop k = y ++ 'M' :: post ∧
      (pre ++ 'A' :: post).drop k = y ++ 'A' :: post) := by
  by_cases h : k ≤ pre.length
  · right
    exact ⟨pre.drop k, List.drop_append_of_le_length h, List.drop_append_of_le_length h⟩
  · left
    have hk : k = pre.length + (k - pre.length) := by omega
    rw [hk, List.drop_append, List.drop_append]
    have : k - pre.length = (k - pre.length - 1) + 1 := by omega
    rw [this, List.drop_succ_cons, List.drop_succ_cons]

theorem jump_loop_length (q : List Char) :
    ∀ (n i : Nat) (j : List Char), (jump_loop q n i j).length = j.length
  | 0, _, _ => rfl
  | n + 1, i, j => by
    rw [jump_loop]
    split_ifs
    · rfl
    · rw [jump_loop_length q n (i + 1), List.length_set]

theorem jump_loop_subst (y post : List Char) :
    jump_loop (y ++ 'M' :: post) 3 0 [' ', ' ', ' ']
        = jump_loop (y ++ 'A' :: post) 3 0 [' ', ' ', ' '] ∨
      'A' ∈ jump_loop (y ++ 'A' :: post) 3 0 [' ', ' ', ' '] := by
  match y with
  | [] =>
    right
    simp [jump_loop, peek]
    split_ifs <;> simp
  | [a] =>
    by_cases ha : a = ' '
    · left; simp [jump_loop, peek, ha]
    · right
      simp [jump_loop, peek, ha]
      split_ifs <;> simp
  | [a, b] =>
    by_cases ha : a = ' '
    · left; simp [jump_loop, peek, ha]
    · by_cases hb : b = ' '
      · left; simp [jump_loop, peek, ha, hb]
      · right
        simp [jump_loop, peek, ha, hb]
  | a :: b :: c :: r =>
    left
    simp [jump_loop, peek]


theorem value_loop_eq_subst (x post : List Char) (hlen : x.length ≤ 2)
    (hx : ∀ c ∈ x, c ≠ ' ' ∧ c ≠ NUL ∧ c ≠ '\r' ∧ c ≠ '\n') :
    (value_loop_eq (x ++ 'M' :: post) 3 0 ('0', [' ', ' ', ' '])).2
        = (value_loop_eq (x ++ 'A' :: post) 3 0 ('0', [' ', ' ', ' '])).2 ∧
      (value_loop_eq (x ++ 'M' :: post) 3 0 ('0', [' ', ' ', ' '])).1 = '1' ∧
      (value_loop_eq (x ++ 'A' :: post) 3 0 ('0', [' ', ' ', ' '])).2.length = 3 ∧
      ((value_loop_eq (x ++ 'A' :: post) 3 0 ('0', [' ', ' ', ' '])).1 = '0' ∨
        2 ≤ (value_loop_eq (x ++ 'A' :: post) 3 0 ('0', [' ', ' ', ' '])).2.count 'A') := by
  match x, hlen, hx with
  | [], _, _ =>
    simp only [List.nil_append, value_loop_eq, peek, List.getD_cons_zero, List.getD_cons_succ]
    generalize post.getD 0 NUL = u
    generalize post.getD 1 NUL = v
    simp only [show ¬ ('M' = ' ' ∨ 'M' = NUL ∨ 'M' = '\r' ∨ 'M' = '\n') by decide,
      show ¬ ('A' = ' ' ∨ 'A' = NUL ∨ 'A' = '\r' ∨ 'A' = '\n') by decide,
      show ¬ ('A' = 'M') by decide, if_false, if_true]
    split_ifs <;> simp [List.count_cons]
  | [a], _, hx =>
    obtain ⟨h1, h2, h3, h4⟩ := hx a (by simp)
    simp only [List.cons_append, List.nil_append, value_loop_eq, peek, List.getD_cons_zero,
      List.getD_cons_succ]
    generalize post.getD 0 NUL = u
    simp only [show ¬ ('M' = ' ' ∨ 'M' = NUL ∨ 'M' = '\r' ∨ 'M' = '\n') by decide,
      show ¬ ('A' = ' ' ∨ 'A' = NUL ∨ 'A' = '\r' ∨ 'A' = '\n') by decide,
      show ¬ ('A' = 'M') by decide, h1, h2, h3, h4, or_self, if_false, if_true]
    split_ifs <;> simp [List.count_cons]
  | [a, b], _, hx =>
    obtain ⟨h1, h2, h3, h4⟩ := hx a (by simp)
    obtain ⟨k1, k2, k3, k4⟩ := hx b (by simp)
    simp only [List.cons_append, List.nil_append, value_loop_eq, peek, List.getD_cons_zero,
      List.getD_cons_succ]
    simp only [show ¬ ('M' = ' ' ∨ 'M' = NUL ∨ 'M' = '\r' ∨ 'M' = '\n') by decide,
      show ¬ ('A' = ' ' ∨ 'A' = NUL ∨ 'A' = '\r' ∨ 'A' = '\n') by decide,
      show ¬ ('A' = 'M') by decide, h1, h2, h3, h4, k1, k2, k3, k4, or_self, if_false, if_true]
    split_ifs <;> simp [List.count_cons]
  | _ :: _ :: _ :: _, h, _ => simp at h


theorem value_loop_noeq_subst (x post : List Char) (hlen : x.length ≤ 2)
    (hx : ∀ c ∈ x, c ≠ ';') :
    (value_loop_noeq (x ++ 'M' :: post) 3 0 ('0', [' ', ' ', ' '])).2
        = (value_loop_noeq (x ++ 'A' :: post) 3 0 ('0', [' ', ' ', ' '])).2 ∧
      (value_loop_noeq (x ++ 'M' :: post) 3 0 ('0', [' ', ' ', ' '])).1 = '1' ∧
      (value_loop_noeq (x ++ 'A' :: post) 3 0 ('0', [' ', ' ', ' '])).2.length = 3 ∧
      ((value_loop_noeq (x ++ 'A' :: post) 3 0 ('0', [' ', ' ', ' '])).1 = '0' ∨
        2 ≤ (value_loop_noeq (x ++ 'A' :: post) 3 0 ('0', [' ', ' ', ' '])).2.count 'A') := by
  match x, hlen, hx with
  | [], _, _ =>
    simp only [List.nil_append, value_loop_noeq, peek, List.getD_cons_zero, List.getD_cons_succ]
    generalize post.getD 0 NUL = u
    generalize post.getD 1 NUL = v
    simp only [show ¬ ('M' = ';') by decide, show ¬ ('A' = ';') by decide,
      show ¬ ('A' = 'M') by decide, if_false, if_true]
    split_ifs <;> simp [List.count_cons]
  | [a], _, hx =>
    have h1 := hx a (by simp)
    simp only [List.cons_append, List.nil_append, value_loop_noeq, peek, List.getD_cons_zero,
      List.getD_cons_succ]
    generalize post.getD 0 NUL = u
    simp only [show ¬ ('M' = ';') by decide, show ¬ ('A' = ';') by decide,
      show ¬ ('A' = 'M') by decide, h1, if_false, if_true]
    split_ifs <;> simp [List.count_cons]
  | [a, b], _, hx =>
    have h1 := hx a (by simp)
    have k1 := hx b (by simp)
    simp only [List.cons_append, List.nil_append, value_loop_noeq, peek, List.getD_cons_zero,
      List.getD_cons_succ]
    simp only [show ¬ ('M' = ';') by decide, show ¬ ('A' = ';') by decide,
      show ¬ ('A' = 'M') by decide, h1, k1, if_false, if_true]
    split_ifs <;> simp [List.count_cons]
  | _ :: _ :: _ :: _, h, _ => simp at h

theorem destination_loop_congr (p p' : List Char) (len : Nat)
    (h : ∀ i, i < len → peek p' i = peek p i) :
    ∀ (n i : Nat) (d : List Char),
      destination_loop p' len n i d = destination_loop p len n i d
  | 0, _, _ => rfl
  | n + 1, i, d => by
    rw [destination_loop, destination_loop]
    by_cases hi : i < len
    · rw [if_pos hi, if_pos hi, h i hi, destination_loop_congr p p' len h n (i + 1)]
    · rw [if_neg hi, if_neg hi]

theorem peek_append_left (d r : List Char) (i : Nat) (h : i < d.length) :
    peek (d ++ r) i = peek d i := by
  simp [peek, List.getD, List.getElem?_append_left h]

theorem generate_c_type_inv (am : Char) (v dst j w : List Char)
    (h : generate_c_type am v dst j = .ok w) :
    ∃ comp jc, map_at (string_comparison 3) alu_inputs v = .ok comp ∧
      map_at (string_comparison 3) jump_inputs j = .ok jc ∧
      w = ['1', '1', '1'] ++ [am] ++ comp.take 6 ++ dest_loop dst 3 0 ['0', '0', '0']
        ++ jc.take 3 := by
  unfold generate_c_type at h
  cases h1 : map_at (string_comparison 3) alu_inputs v with
  | error e => rw [h1] at h; simp at h
  | ok comp =>
    rw [h1] at h
    simp only at h
    cases h2 : map_at (string_comparison 3) jump_inputs j with
    | error e => rw [h2] at h; simp at h
    | ok jc =>
      rw [h2] at h
      simp only [Except.ok.injEq] at h
      exact ⟨comp, jc, rfl, rfl, h.symm⟩

theorem jump_part_length (p : List Char) : (jump_part p).length = 3 := by
  unfold jump_part
  split
  · rw [jump_loop_length]; rfl
  · rfl

theorem jump_part_subst (pre post : List Char) :
    jump_part (pre ++ 'M' :: post) = jump_part (pre ++ 'A' :: post) ∨
      'A' ∈ jump_part (pre ++ 'A' :: post) := by
  unfold jump_part
  rw [strchr_subst ';' (by decide) (by decide)]
  cases strchr (pre ++ 'A' :: post) ';' with
  | none => left; rfl
  | some s =>
    simp only
    rcases drop_subst pre post (s + 1) with h | ⟨y, h1, h2⟩
    · left; rw [h]
    · rw [h1, h2]
      exact jump_loop_subst y post

theorem selector_final (am : Char) (v dst j j' w : List Char)
    (h : generate_c_type am v dst j = .ok w) (hvl : v.length = 3) (hjl : j.length = 3)
    (ham : am = '0' ∨ 2 ≤ v.count 'A') (hj : j' = j ∨ 'A' ∈ j) :
    generate_c_type '1' v dst j' = .ok (w.set 3 '1') ∧ w[3]? = some '0' := by
  obtain ⟨comp, jc, h1, h2, hw⟩ := generate_c_type_inv am v dst j w h
  obtain ⟨hcount, _⟩ := alu_lookup_ok v comp hvl h1
  obtain ⟨hnoA, _⟩ := jump_lookup_ok j jc hjl h2
  have ham0 : am = '0' := by
    rcases ham with h0 | h0
    · exact h0
    · omega
  have hjj : j' = j := by
    rcases hj with h0 | h0
    · exact h0
    · exact absurd h0 hnoA
  subst ham0 hjj hw
  rw [generate_c_type_ok '1' v dst j' comp jc h1 h2]
  exact ⟨rfl, by simp⟩

/-- C10, amended. When a line is encoded and has an `A` among the bytes that
`split_c_instruction` reads as the expression (`expression_position`), the
line with `M` in place of that `A` is encoded as well, to the same word but
for the fourth byte, the selector bit, which is `0` for the line with `A` and
`1` for the line with `M`. -/
theorem C10_selector_bit (pre post w : List Char) (hpos : expression_position pre post)
    (h : encode_c_instruction (pre ++ 'A' :: post) = .ok w) :
    encode_c_instruction (pre ++ 'M' :: post) = .ok (w.set 3 '1') ∧ w[3]? = some '0' := by
  have hjl := jump_part_length (pre ++ 'A' :: post)
  have hjs := jump_part_subst pre post
  have hsplit : ∀ p, split_c_instruction p =
      match strchr p '=' with
      | some e =>
        match destination_loop p e (e + 1) 0 [' ', ' ', ' '] with
        | .ok destination =>
          .ok { am_decision := (value_loop_eq (p.drop (e + 1)) 3 0 ('0', [' ', ' ', ' '])).1,
                destination := destination,
                value := (value_loop_eq (p.drop (e + 1)) 3 0 ('0', [' ', ' ', ' '])).2,
                jump := jump_part p }
        | .error err => .error err
      | none =>
        .ok { am_decision := (value_loop_noeq p 3 0 ('0', [' ', ' ', ' '])).1,
              destination := [' ', ' ', ' '],
              value := (value_loop_noeq p 3 0 ('0', [' ', ' ', ' '])).2,
              jump := jump_part p } := by
    intro p
    unfold split_c_instruction jump_part
    rfl
  unfold encode_c_instruction at h ⊢
  rw [hsplit] at h ⊢
  rcases hpos with ⟨d, x, rfl, hd, hxl, hx⟩ | ⟨hne, hlen, hpre⟩
  · have heq : ∀ c : Char, strchr ((d ++ '=' :: x) ++ c :: post) '=' = some d.length := by
      intro c
      rw [List.append_assoc, strchr_append _ _ d hd, List.cons_append, strchr_cons_self]
      simp
    have hdrop : ∀ c : Char, ((d ++ '=' :: x) ++ c :: post).drop (d.length + 1)
        = x ++ c :: post := by
      intro c
      rw [List.append_assoc, List.cons_append, drop_past_separator]
    have hdest : destination_loop ((d ++ '=' :: x) ++ 'M' :: post) d.length (d.length + 1) 0
          [' ', ' ', ' ']
        = destination_loop ((d ++ '=' :: x) ++ 'A' :: post) d.length (d.length + 1) 0
          [' ', ' ', ' '] := by
      apply destination_loop_congr
      intro i hi
      rw [List.append_assoc, List.append_assoc, peek_append_left _ _ _ hi,
        peek_append_left _ _ _ hi]
    obtain ⟨v1, v2, v3, v4⟩ := value_loop_eq_subst x post hxl hx
    rw [heq] at h ⊢
    simp only [hdrop] at h ⊢
    rw [hdest]
    cases hdl : destination_loop ((d ++ '=' :: x) ++ 'A' :: post) d.length (d.length + 1) 0
        [' ', ' ', ' '] with
    | error e => rw [hdl] at h; simp at h
    | ok dst =>
      rw [hdl] at h
      simp only at h ⊢
      rw [v1, v2]
      exact selector_final _ _ dst _ _ w h v3 hjl v4 hjs
  · have hne' : strchr (pre ++ 'M' :: post) '=' = none := by
      rw [strchr_subst '=' (by decide) (by decide), hne]
    obtain ⟨v1, v2, v3, v4⟩ := value_loop_noeq_subst pre post hlen hpre
    rw [hne] at h
    rw [hne']
    simp only at h ⊢
    rw [v1, v2]
    exact selector_final _ _ _ _ _ w h v3 hjl v4 hjs


set_option maxRecDepth 100000 in
/-- C10, amended, at the lines `D=D+A` and `D=D+M`. -/
theorem C10_selector_bit_witness :
    encode_c_instruction (['D', '=', 'D', '+'] ++ 'M' :: ['\n'])
      = .ok ("1110000010010000".toList.set 3 '1') ∧
    "1110000010010000".toList[3]? = some '0' :=
  C10_selector_bit ['D', '=', 'D', '+'] ['\n'] "1110000010010000".toList
    (Or.inl ⟨['D'], ['D', '+'], rfl, by decide, by decide, by decide⟩) (by decide)

set_option maxRecDepth 100000 in
/-- C10 as stated fails for an `A` behind the third byte of the expression:
`D=D+1A` and `D=D+1M` are both encoded, to the same word, with the selector
bit `0`. -/
theorem C10_unread_A :
    encode_c_instruction "D=D+1A\n".toList = .ok "1110011111010000".toList ∧
    encode_c_instruction "D=D+1M\n".toList = .ok "1110011111010000".toList := by
  decide

/-! ## Truncation, octal numerals and the destination of `AM` -/

theorem pass2_line_numeral (g : Globals) (n : Nat) (rest : List Char) (hn : n < 2 ^ 31)
    (hrest : numeral_end rest) :
    pass2_line g ('@' :: (Nat.toDigits 10 n ++ rest))
      = .ok (some (generate_a_type (n % 65536)), g) := by
  obtain ⟨c, t, heq, hlo, hhi, _, _, _⟩ := toDigitsCore_numeral (n + 1) n [] (by omega)
  have hscan := scan_i_numeral n rest hn hrest
  have hd : Nat.toDigits 10 n ++ rest = c :: (t ++ rest) := by
    rw [Nat.toDigits, heq]; simp
  have hp : skip_spaces ('@' :: (Nat.toDigits 10 n ++ rest))
      = '@' :: (Nat.toDigits 10 n ++ rest) := by
    rw [skip_spaces, if_neg (by decide)]
  have h1 : peek ('@' :: (Nat.toDigits 10 n ++ rest)) 1 = c := by
    rw [hd]; rfl
  have h0 : peek ('@' :: (Nat.toDigits 10 n ++ rest)) 0 = '@' := rfl
  have hnc : (not_command '@' || decide ('@' = '(')) = false := by decide
  unfold pass2_line
  simp only [hp, h0, hnc]
  unfold encode_instruction encode_a_instruction
  simp only [h0, h1, hlo, hhi, and_self, if_true, List.drop_one, List.tail_cons, hscan]
  rfl

/-- C18. For every 16-bit `n`, `generate_a_type n` is `0` followed by 15 binary
digits whose value is `n mod 2^15`, and a line `@` with the decimal numeral
of `n` is encoded to that word: a literal above 32767 is cut to its low 15
bits and the first byte of the word is `0`. -/
theorem C18_truncated_address (g : Globals) (n : Nat) (rest : List Char) (hn : n < 65536)
    (hrest : numeral_end rest) :
    (∃ bits, generate_a_type n = '0' :: bits ∧ bits.length = 15 ∧
      (∀ c ∈ bits, c = '0' ∨ c = '1') ∧ binary_value bits = n % 2 ^ 15) ∧
    pass2_line g ('@' :: (Nat.toDigits 10 n ++ rest)) = .ok (some (generate_a_type n), g) := by
  refine ⟨⟨bitset_to_string 15 n, rfl, bitset_to_string_length 15 n,
    bitset_to_string_bits 15 n, binary_value_bitset 15 n⟩, ?_⟩
  rw [pass2_line_numeral g n rest (by omega) hrest, Nat.mod_eq_of_lt hn]

set_option maxRecDepth 100000 in
/-- C18 at the literal 40000. -/
theorem C18_truncated_address_witness :
    (∃ bits, generate_a_type 40000 = '0' :: bits ∧ bits.length = 15 ∧
      (∀ c ∈ bits, c = '0' ∨ c = '1') ∧ binary_value bits = 40000 % 2 ^ 15) ∧
    pass2_line globals_init ('@' :: (Nat.toDigits 10 40000 ++ ['\n']))
      = .ok (some (generate_a_type 40000), globals_init) :=
  C18_truncated_address globals_init 40000 ['\n'] (by decide) (by decide)

set_option maxRecDepth 100000 in
/-- C19 fails in the code for a numeral with a leading zero: `%i` reads `010`
as an octal numeral, and the line `@010` is encoded as the address 8, not as
the address 10. -/
theorem C19_leading_zero_is_octal :
    pass2_line globals_init "@010\n".toList = .ok (some (generate_a_type 8), globals_init) ∧
    generate_a_type 8 = "0000000000001000".toList ∧
    generate_a_type 10 = "0000000000001010".toList := by
  decide

set_option maxRecDepth 100000 in
/-- C12 as stated fails: the words for `AM=D+1;JGT` and `M=D+1;JGT` have the
same selector bit and different destination bits. -/
theorem C12_selector_bits_equal :
    ∃ w1 w2, parse_file globals_init "AM=D+1;JGT\n".toList = .ok ([w1], globals_init) ∧
      parse_file globals_init "M=D+1;JGT\n".toList = .ok ([w2], globals_init) ∧
      selector_field w1 = selector_field w2 ∧ dest_field w1 ≠ dest_field w2 :=
  ⟨"1110011111101001".toList, "1110011111001001".toList, by decide, by decide, by decide,
    by decide⟩

set_option maxRecDepth 100000 in
/-- C12, amended. The words for `AM=D+1;JGT` and `M=D+1;JGT` agree in the
high bits, in the selector bit, which is `0` in both, in the ALU bits and in
the jump bits; they differ in the destination bits, `101` and `001`. -/
theorem C12_destination_differs :
    parse_file globals_init "AM=D+1;JGT\n".toList
      = .ok (["1110011111101001".toList], globals_init) ∧
    parse_file globals_init "M=D+1;JGT\n".toList
      = .ok (["1110011111001001".toList], globals_init) ∧
    high_bits "1110011111101001".toList = high_bits "1110011111001001".toList ∧
    selector_field "1110011111101001".toList = ['0'] ∧
    selector_field "1110011111001001".toList = ['0'] ∧
    comp_field "1110011111101001".toList = comp_field "1110011111001001".toList ∧
    jump_field "1110011111101001".toList = jump_field "1110011111001001".toList ∧
    dest_field "1110011111101001".toList = ['1', '0', '1'] ∧
    dest_field "1110011111001001".toList = ['0', '0', '1'] := by
  decide

/-! ## Failure of `generate_c_type` -/

set_option maxRecDepth 100000 in
theorem alu_inputs_eq_spec :
    alu_inputs = spec_alu_table.map (fun e => (pad3 e.1, e.2)) := by decide

set_option maxRecDepth 100000 in
theorem jump_inputs_eq_spec :
    jump_inputs = spec_jump_table.map (fun e => (pad3 e.1, e.2)) := by decide

set_option maxRecDepth 100000 in
theorem spec_alu_table_at : ∀ e ∈ spec_alu_table,
    map_at (string_comparison 3) alu_inputs (pad3 e.1) = .ok e.2 ∧ e.2.length = 6 := by
  decide

set_option maxRecDepth 100000 in
theorem spec_jump_table_at : ∀ e ∈ spec_jump_table,
    map_at (string_comparison 3) jump_inputs (pad3 e.1) = .ok e.2 ∧ e.2.length = 3 := by
  decide

theorem map_at_error (lt : List Char → List Char → Bool) (m : List (List Char × List Char))
    (k : List Char) (err : Error) (h : map_at lt m k = .error err) : err = .out_of_range := by
  unfold map_at at h
  split at h
  · simp at h
  · simp only [Except.error.injEq] at h
    exact h.symm

theorem alu_lookup_spec (q v : List Char) (hq : q.length = 3)
    (h : map_at (string_comparison 3) alu_inputs q = .ok v) :
    ∃ e ∈ spec_alu_table, q = pad3 e.1 ∧ v = e.2 := by
  have hmem := map_at_exact alu_inputs q v (fun e he => (alu_inputs_keys e he).1) hq h
  rw [alu_inputs_eq_spec, List.mem_map] at hmem
  obtain ⟨e, he, heq⟩ := hmem
  simp only [Prod.mk.injEq] at heq
  exact ⟨e, he, heq.1.symm, heq.2.symm⟩

theorem jump_lookup_spec (q v : List Char) (hq : q.length = 3)
    (h : map_at (string_comparison 3) jump_inputs q = .ok v) :
    ∃ e ∈ spec_jump_table, q = pad3 e.1 ∧ v = e.2 := by
  have hmem := map_at_exact jump_inputs q v (fun e he => (jump_inputs_keys e he).1) hq h
  rw [jump_inputs_eq_spec, List.mem_map] at hmem
  obtain ⟨e, he, heq⟩ := hmem
  simp only [Prod.mk.injEq] at heq
  exact ⟨e, he, heq.1.symm, heq.2.symm⟩

/-- C13. For a three-byte expression field and a three-byte jump field,
`generate_c_type` throws if and only if the expression field is not one of
the 18 keys of the ALU table or the jump field is not one of the 8 keys of
the jump table; when both are keys it returns a word, and every word it
returns holds the codes of the entries whose keys are equal to the fields. -/
theorem C13_exact_match (am : Char) (alu dest jump : List Char) (hl : alu.length = 3)
    (hj : jump.length = 3) :
    (generate_c_type am alu dest jump = .error .out_of_range ↔
      (alu ∉ spec_alu_fields ∨ jump ∉ spec_jump_fields)) ∧
    ((alu ∈ spec_alu_fields ∧ jump ∈ spec_jump_fields) →
      ∃ w, generate_c_type am alu dest jump = .ok w) ∧
    (∀ w, generate_c_type am alu dest jump = .ok w →
      ∃ e ∈ spec_alu_table, ∃ j ∈ spec_jump_table, alu = pad3 e.1 ∧ jump = pad3 j.1 ∧
        w = ['1', '1', '1', am] ++ e.2 ++ dest_loop dest 3 0 ['0', '0', '0'] ++ j.2) := by
  have hok : (alu ∈ spec_alu_fields ∧ jump ∈ spec_jump_fields) →
      ∃ w, generate_c_type am alu dest jump = .ok w := by
    rintro ⟨ha, hjm⟩
    obtain ⟨e, he, rfl⟩ := List.mem_map.1 ha
    obtain ⟨j, hje, rfl⟩ := List.mem_map.1 hjm
    exact ⟨_, generate_c_type_ok am _ dest _ _ _ (spec_alu_table_at e he).1
      (spec_jump_table_at j hje).1⟩
  have hinv : ∀ w, generate_c_type am alu dest jump = .ok w →
      ∃ e ∈ spec_alu_table, ∃ j ∈ spec_jump_table, alu = pad3 e.1 ∧ jump = pad3 j.1 ∧
        w = ['1', '1', '1', am] ++ e.2 ++ dest_loop dest 3 0 ['0', '0', '0'] ++ j.2 := by
    intro w h
    obtain ⟨comp, jc, h1, h2, hw⟩ := generate_c_type_inv am alu dest jump w h
    obtain ⟨e, he, hae, hce⟩ := alu_lookup_spec alu comp hl h1
    obtain ⟨j, hje, hjj, hcj⟩ := jump_lookup_spec jump jc hj h2
    refine ⟨e, he, j, hje, hae, hjj, ?_⟩
    rw [hw, hce, hcj, List.take_of_length_le (le_of_eq (spec_alu_table_at e he).2),
      List.take_of_length_le (le_of_eq (spec_jump_table_at j hje).2)]
    rfl
  refine ⟨⟨?_, ?_⟩, hok, hinv⟩
  · intro herr
    by_contra hcon
    have hboth : alu ∈ spec_alu_fields ∧ jump ∈ spec_jump_fields := by
      constructor
      · by_contra h; exact hcon (Or.inl h)
      · by_contra h; exact hcon (Or.inr h)
    obtain ⟨w, hw⟩ := hok hboth
    rw [hw] at herr
    simp at herr
  · intro hnot
    cases hg : generate_c_type am alu dest jump with
    | ok w =>
      exfalso
      obtain ⟨e, he, j, hje, hae, hjj, _⟩ := hinv w hg
      rcases hnot with h | h
      · exact h (List.mem_map.2 ⟨e, he, hae.symm⟩)
      · exact h (List.mem_map.2 ⟨j, hje, hjj.symm⟩)
    | error err =>
      unfold generate_c_type at hg
      cases h1 : map_at (string_comparison 3) alu_inputs alu with
      | error e1 =>
        rw [h1] at hg
        simp only [Except.error.injEq] at hg
        rw [← hg, map_at_error _ _ _ _ h1]
      | ok comp =>
        rw [h1] at hg
        simp only at hg
        cases h2 : map_at (string_comparison 3) jump_inputs jump with
        | error e2 =>
          rw [h2] at hg
          simp only [Except.error.injEq] at hg
          rw [← hg, map_at_error _ _ _ _ h2]
        | ok jc => rw [h2] at hg; simp at hg

set_option maxRecDepth 100000 in
/-- C13 at the fields `D+A` and `JM `. -/
theorem C13_exact_match_witness :
    (generate_c_type '0' ['D', '+', 'A'] ['D', ' ', ' '] ['J', 'M', ' '] = .error .out_of_range ↔
      (['D', '+', 'A'] ∉ spec_alu_fields ∨ ['J', 'M', ' '] ∉ spec_jump_fields)) ∧
    ['J', 'M', ' '] ∉ spec_jump_fields :=
  ⟨(C13_exact_match '0' ['D', '+', 'A'] ['D', ' ', ' '] ['J', 'M', ' '] (by decide)
    (by decide)).1, by decide⟩

/-! ## The destination mask -/

theorem dest_expr_word (d e rest : List Char) (hd1 : d ≠ []) (hd3 : d.length ≤ 3)
    (hd : ∀ c ∈ d, c = 'A' ∨ c = 'D' ∨ c = 'M') (he : e ∈ alu_expressions)
    (hend : line_end rest) (hsemi : strchr rest ';' = none) :
    ∃ code, alu_code e = some code ∧ code.length = 6 ∧
      encode_c_instruction (d ++ '=' :: (e ++ rest)) =
        .ok (['1', '1', '1', selector_bit e] ++ code ++ dest_mask d ++ ['0', '0', '0']) := by
  obtain ⟨hlen, hch⟩ := alu_expressions_chars e he
  obtain ⟨code, hcode, hclen, hat⟩ := alu_inputs_at_table e he
  refine ⟨code, hcode, hclen, ?_⟩
  have heq : strchr (d ++ '=' :: (e ++ rest)) '=' = some d.length := by
    rw [strchr_append _ _ d (letters_ne d hd '=' (by decide) (by decide) (by decide)),
      strchr_cons_self]
    simp
  have hsc : strchr (d ++ '=' :: (e ++ rest)) ';' = none := by
    rw [strchr_append _ _ d (letters_ne d hd ';' (by decide) (by decide) (by decide)),
      strchr, if_neg (by decide), if_neg (by decide),
      strchr_append _ _ e (fun c hc => ⟨(hch c hc).2.2.2.2.1, (hch c hc).2.1⟩), hsemi]
    rfl
  have hval : value_loop_eq (e ++ rest) 3 0 ('0', [' ', ' ', ' '])
      = (selector_bit e, pad3 (write_A e)) := by
    rw [value_loop_eq_append _ e rest hlen
      (fun c hc => ⟨(hch c hc).1, (hch c hc).2.1, (hch c hc).2.2.1, (hch c hc).2.2.2.1⟩) hend]
    exact value_loop_eq_table e he
  unfold encode_c_instruction split_c_instruction
  rw [heq, hsc]
  simp only [drop_past_separator]
  rw [hval, destination_loop_copy d _ hd1 hd3]
  simp only
  rw [generate_c_type_ok _ _ _ _ _ _ hat jump_inputs_at_none, dest_loop_letters d hd1 hd3 hd,
    List.take_of_length_le (le_of_eq hclen)]
  rfl

theorem dest_field_of_word (sel : Char) (code mask tail : List Char) (hc : code.length = 6)
    (hm : mask.length = 3) :
    dest_field (['1', '1', '1', sel] ++ code ++ mask ++ tail) = mask := by
  match code, hc, mask, hm with
  | [a, b, c, d, e, f], _, [x, y, z], _ => simp [dest_field]

theorem dest_mask_congr (d1 d2 : List Char) (h : ∀ c, c ∈ d1 ↔ c ∈ d2) :
    dest_mask d1 = dest_mask d2 := by
  simp only [dest_mask, h]

/-- C11, amended. For two destinations of one to three letters from `A`, `D`,
`M` with the same set of letters and an expression of the table, the lines
`d1=e` and `d2=e` are both encoded and their words have the same destination
bits: the first is `1` iff `A` occurs, the second iff `D`, the third iff
`M`. -/
theorem C11_destination_mask (d1 d2 e rest1 rest2 : List Char)
    (h1 : d1 ≠ []) (h1l : d1.length ≤ 3) (h1c : ∀ c ∈ d1, c = 'A' ∨ c = 'D' ∨ c = 'M')
    (h2 : d2 ≠ []) (h2l : d2.length ≤ 3) (h2c : ∀ c ∈ d2, c = 'A' ∨ c = 'D' ∨ c = 'M')
    (hset : ∀ c, c ∈ d1 ↔ c ∈ d2) (he : e ∈ alu_expressions)
    (hend1 : line_end rest1) (hsemi1 : strchr rest1 ';' = none)
    (hend2 : line_end rest2) (hsemi2 : strchr rest2 ';' = none) :
    ∃ w1 w2, encode_c_instruction (d1 ++ '=' :: (e ++ rest1)) = .ok w1 ∧
      encode_c_instruction (d2 ++ '=' :: (e ++ rest2)) = .ok w2 ∧
      dest_field w1 = dest_field w2 ∧
      dest_field w1 = [if 'A' ∈ d1 then '1' else '0', if 'D' ∈ d1 then '1' else '0',
        if 'M' ∈ d1 then '1' else '0'] := by
  obtain ⟨c1, hc1, hl1, hw1⟩ := dest_expr_word d1 e rest1 h1 h1l h1c he hend1 hsemi1
  obtain ⟨c2, hc2, hl2, hw2⟩ := dest_expr_word d2 e rest2 h2 h2l h2c he hend2 hsemi2
  refine ⟨_, _, hw1, hw2, ?_, ?_⟩
  · rw [dest_field_of_word _ c1 (dest_mask d1) _ hl1 rfl,
      dest_field_of_word _ c2 (dest_mask d2) _ hl2 rfl]
    exact dest_mask_congr d1 d2 hset
  · rw [dest_field_of_word _ c1 (dest_mask d1) _ hl1 rfl]
    rfl

set_option maxRecDepth 100000 in
/-- C11, amended, at the lines `ADM=D` and `MDA=D`. -/
theorem C11_destination_mask_witness :
    ∃ w1 w2, encode_c_instruction (['A', 'D', 'M'] ++ '=' :: (['D'] ++ ['\n'])) = .ok w1 ∧
      encode_c_instruction (['M', 'D', 'A'] ++ '=' :: (['D'] ++ ['\n'])) = .ok w2 ∧
      dest_field w1 = dest_field w2 ∧
      dest_field w1 = [if 'A' ∈ ['A', 'D', 'M'] then '1' else '0',
        if 'D' ∈ ['A', 'D', 'M'] then '1' else '0', if 'M' ∈ ['A', 'D', 'M'] then '1' else '0'] :=
  C11_destination_mask ['A', 'D', 'M'] ['M', 'D', 'A'] ['D'] ['\n'] ['\n'] (by decide)
    (by decide) (by decide) (by decide) (by decide) (by decide)
    (fun c => by simp only [List.mem_cons, List.mem_singleton, List.not_mem_nil, or_false]; tauto)
    (by decide) (by decide) (by decide) (by decide) (by decide)

set_option maxRecDepth 100000 in
/-- C11 as stated fails for a destination of more than three letters: `ADM=D`
is encoded with the destination bits `111`, while on the line `AADM=D`, whose
destination has the same letters, the fourth letter is stored behind the end
of `destination` and no word is generated. -/
theorem C11_fourth_letter :
    encode_c_instruction "ADM=D\n".toList = .ok "1110001100111000".toList ∧
    dest_field "1110001100111000".toList = ['1', '1', '1'] ∧
    encode_c_instruction "AADM=D\n".toList = .error .undefined := by
  decide

/-! ## Failure of a run, and the bindings of names -/

/-- C14. When the second loop reaches a line that is not encoded because
`std::map::at` throws, the call of `parse_file` ends with that exception and
writes nothing to `out.hack`; what a call writes is the complete sequence of
the words of a run that succeeds, one for each instruction line. -/
theorem C14_no_partial_output (g : Globals) (file : List Char) :
    (∀ pre l post o gj, read_lines file = pre ++ l :: post →
      parse_file_upto g file pre.length = .ok (o, gj) →
      pass2_line gj l = .error .out_of_range →
      parse_file g file = .error .out_of_range ∧ written_output g file = none) ∧
    (∀ text, written_output g file = some text →
      ∃ out g', parse_file g file = .ok (out, g') ∧
        out.length = ((read_lines file).filter instruction_line).length ∧
        text = (out.map (· ++ ['\n'])).flatten) := by
  refine ⟨?_, ?_⟩
  · intro pre l post o gj hlines hpre hfail
    have hrun : parse_file g file = .error .out_of_range := by
      unfold parse_file_upto at hpre
      rw [hlines, take_split] at hpre
      unfold parse_file
      rw [hlines, pass2_append, hpre]
      simp only [pass2, hfail]
    exact ⟨hrun, by unfold written_output; rw [hrun]⟩
  · intro text h
    unfold written_output at h
    cases hrun : parse_file g file with
    | error e => rw [hrun] at h; simp at h
    | ok r =>
      obtain ⟨out, g'⟩ := r
      rw [hrun] at h
      simp only [Option.some.injEq] at h
      unfold parse_file at hrun
      obtain ⟨ws, hws, hlen⟩ := pass2_output _ _ _ _ _ hrun
      simp only [List.nil_append] at hws
      subst hws
      exact ⟨out, g', rfl, hlen, h.symm⟩

set_option maxRecDepth 100000 in
/-- C14 at a source whose second line is `D=A;JMP`. -/
theorem C14_no_partial_output_witness :
    parse_file globals_init failing_example = .error .out_of_range ∧
      written_output globals_init failing_example = none :=
  (C14_no_partial_output globals_init failing_example).1 ["@1\n".toList] "D=A;JMP\n".toList
    ["@2\n".toList] [generate_a_type 1] globals_init (by decide) (by decide) (by decide)

/-- C15, amended. In the first loop a name keeps its address over every
stretch of lines in which no line declares it as a label; in the second loop
no binding changes: a name that is bound at the end of the first loop or at
any line of the second loop, be it a label, a pre-seeded symbol or a variable
that was allocated, has the same address at every later line. -/
theorem C15_bindings_kept (g : Globals) (file : List Char) :
    (∀ j k t v, map_find (variable_map_after g file j) t = some v →
      (∀ l ∈ ((read_lines file).drop j).take k, declares l t = false) →
      map_find (variable_map_after g file (j + k)) t = some v) ∧
    (∀ j o gj t v, parse_file_upto g file j = .ok (o, gj) →
      map_find (variable_map_after g file (read_lines file).length) t = some v →
      map_find gj.variable_map t = some v) ∧
    (∀ j k o1 g1 o2 g2 t v, parse_file_upto g file j = .ok (o1, g1) →
      parse_file_upto g file (j + k) = .ok (o2, g2) →
      map_find g1.variable_map t = some v → map_find g2.variable_map t = some v) := by
  refine ⟨?_, ?_, ?_⟩
  · intro j k t v hv hno
    unfold variable_map_after at hv ⊢
    rw [List.take_add, pass1_append]
    cases hst : pass1 ((read_lines file).take j) (g.variable_map, 0) with
    | mk m c =>
      rw [hst] at hv
      rw [pass1_map_find _ m c t hno]
      exact hv
  · intro j o gj t v hrun hv
    unfold parse_file_upto at hrun
    obtain ⟨ha, _, _⟩ := pass2_invariant _ _ _ gj o hrun
    apply ha
    unfold variable_map_after at hv
    rw [List.take_length] at hv
    exact hv
  · intro j k o1 g1 o2 g2 t v h1 h2 hv
    unfold parse_file_upto at h1 h2
    rw [List.take_add, pass2_append, h1] at h2
    simp only at h2
    obtain ⟨ha, _, _⟩ := pass2_invariant _ _ _ g2 o2 h2
    exact ha t v hv

set_option maxRecDepth 100000 in
/-- C15 as stated fails: a second declaration of the label `L` binds it to
another address, and the declaration `(SP)` reassigns the address of the
pre-seeded symbol `SP`. -/
theorem C15_redeclaration_rebinds :
    map_find (variable_map_after globals_init redeclared_example 1) ['L'] = some 0 ∧
    map_find (variable_map_after globals_init redeclared_example 3) ['L'] = some 1 ∧
    map_find (variable_map_after globals_init redeclared_example 0) ['S', 'P'] = some 0 ∧
    map_find (variable_map_after globals_init redeclared_example 4) ['S', 'P'] = some 1 := by
  decide

set_option maxRecDepth 100000 in
/-- C15, amended, at the first two lines of a source: `SP` keeps its address
over the line `(L)`, and `L` keeps its address over the line `@0`. -/
theorem C15_bindings_kept_witness :
    map_find (variable_map_after globals_init redeclared_example (0 + 1)) ['S', 'P'] = some 0 ∧
    map_find (variable_map_after globals_init redeclared_example (1 + 1)) ['L'] = some 0 :=
  ⟨(C15_bindings_kept globals_init redeclared_example).1 0 1 ['S', 'P'] 0 (by decide)
      (by decide),
   (C15_bindings_kept globals_init redeclared_example).1 1 1 ['L'] 0 (by decide) (by decide)⟩

/-! ## The words of the output -/

theorem value_loop_eq_am (q : List Char) :
    ∀ (n i : Nat) (am : Char) (v : List Char), (am = '0' ∨ am = '1') →
      ((value_loop_eq q n i (am, v)).1 = '0' ∨ (value_loop_eq q n i (am, v)).1 = '1') ∧
        (value_loop_eq q n i (am, v)).2.length = v.length
  | 0, _, am, v, h => ⟨h, rfl⟩
  | n + 1, i, am, v, h => by
    rw [value_loop_eq]
    split_ifs
    · exact ⟨h, rfl⟩
    · have := value_loop_eq_am q n (i + 1) '1' (v.set i 'A') (Or.inr rfl)
      rw [List.length_set] at this
      exact this
    · have := value_loop_eq_am q n (i + 1) am (v.set i (peek q i)) h
      rw [List.length_set] at this
      exact this

theorem value_loop_noeq_am (q : List Char) :
    ∀ (n i : Nat) (am : Char) (v : List Char), (am = '0' ∨ am = '1') →
      ((value_loop_noeq q n i (am, v)).1 = '0' ∨ (value_loop_noeq q n i (am, v)).1 = '1') ∧
        (value_loop_noeq q n i (am, v)).2.length = v.length
  | 0, _, am, v, h => ⟨h, rfl⟩
  | n + 1, i, am, v, h => by
    rw [value_loop_noeq]
    split_ifs
    · exact ⟨h, rfl⟩
    · have := value_loop_noeq_am q n (i + 1) '1' (v.set i 'A') (Or.inr rfl)
      rw [List.length_set] at this
      exact this
    · have := value_loop_noeq_am q n (i + 1) am (v.set i (peek q i)) h
      rw [List.length_set] at this
      exact this

theorem split_c_instruction_eq (p : List Char) :
    split_c_instruction p =
      match strchr p '=' with
      | some e =>
        match destination_loop p e (e + 1) 0 [' ', ' ', ' '] with
        | .ok destination =>
          .ok { am_decision := (value_loop_eq (p.drop (e + 1)) 3 0 ('0', [' ', ' ', ' '])).1,
                destination := destination,
                value := (value_loop_eq (p.drop (e + 1)) 3 0 ('0', [' ', ' ', ' '])).2,
                jump := jump_part p }
        | .error err => .error err
      | none =>
        .ok { am_decision := (value_loop_noeq p 3 0 ('0', [' ', ' ', ' '])).1,
              destination := [' ', ' ', ' '],
              value := (value_loop_noeq p 3 0 ('0', [' ', ' ', ' '])).2,
              jump := jump_part p } := by
  unfold split_c_instruction jump_part
  rfl

theorem split_c_instruction_fields (p : List Char) (c : c_instruction_components)
    (h : split_c_instruction p = .ok c) :
    (c.am_decision = '0' ∨ c.am_decision = '1') ∧ c.value.length = 3 ∧ c.jump.length = 3 := by
  rw [split_c_instruction_eq] at h
  have h1 := value_loop_noeq_am p 3 0 '0' [' ', ' ', ' '] (Or.inl rfl)
  split at h
  · rename_i e _
    have h2 := value_loop_eq_am (p.drop (e + 1)) 3 0 '0' [' ', ' ', ' '] (Or.inl rfl)
    split at h
    · simp only [Except.ok.injEq] at h
      subst h
      exact ⟨h2.1, h2.2, jump_part_length p⟩
    · simp at h
  · simp only [Except.ok.injEq] at h
    subst h
    exact ⟨h1.1, h1.2, jump_part_length p⟩

theorem dest_loop_bits (d : List Char) :
    ∀ (n i : Nat) (acc : List Char), acc.length = 3 → (∀ c ∈ acc, c = '0' ∨ c = '1') →
      (dest_loop d n i acc).length = 3 ∧ ∀ c ∈ dest_loop d n i acc, c = '0' ∨ c = '1'
  | 0, _, acc, hl, hb => ⟨hl, hb⟩
  | n + 1, i, acc, hl, hb => by
    have hset : ∀ k, (acc.set k '1').length = 3 ∧ ∀ c ∈ acc.set k '1', c = '0' ∨ c = '1' := by
      intro k
      refine ⟨by rw [List.length_set]; exact hl, ?_⟩
      intro c hc
      rcases List.mem_or_eq_of_mem_set hc with h | h
      · exact hb c h
      · exact Or.inr h
    rw [dest_loop]
    split_ifs
    · exact dest_loop_bits d n (i + 1) _ (hset 0).1 (hset 0).2
    · exact dest_loop_bits d n (i + 1) _ (hset 1).1 (hset 1).2
    · exact dest_loop_bits d n (i + 1) _ (hset 2).1 (hset 2).2
    · exact ⟨hl, hb⟩

set_option maxRecDepth 100000 in
theorem alu_inputs_codes : ∀ e ∈ alu_inputs, ∀ c ∈ e.2, c = '0' ∨ c = '1' := by
  decide

set_option maxRecDepth 100000 in
theorem jump_inputs_codes : ∀ e ∈ jump_inputs, ∀ c ∈ e.2, c = '0' ∨ c = '1' := by
  decide

theorem generate_c_type_word (am : Char) (v dst j w : List Char)
    (ham : am = '0' ∨ am = '1') (hv : v.length = 3) (hj : j.length = 3)
    (h : generate_c_type am v dst j = .ok w) :
    machine_word w ∧ w.take 3 = ['1', '1', '1'] := by
  obtain ⟨comp, jc, h1, h2, hw⟩ := generate_c_type_inv am v dst j w h
  have m1 := map_at_exact alu_inputs v comp (fun e he => (alu_inputs_keys e he).1) hv h1
  have m2 := map_at_exact jump_inputs j jc (fun e he => (jump_inputs_keys e he).1) hj h2
  have c1 := (alu_inputs_keys _ m1).2.2
  have c2 := (jump_inputs_keys _ m2).2.2
  have b1 := alu_inputs_codes _ m1
  have b2 := jump_inputs_codes _ m2
  obtain ⟨d1, d2⟩ := dest_loop_bits dst 3 0 ['0', '0', '0'] rfl (by decide)
  simp only at c1 c2 b1 b2
  rw [hw, List.take_of_length_le (le_of_eq c1), List.take_of_length_le (le_of_eq c2)]
  refine ⟨⟨?_, ?_⟩, rfl⟩
  · simp only [List.length_append, List.length_cons, List.length_nil, c1, c2, d1]
  · intro c hc
    simp only [List.mem_append, List.mem_cons, List.mem_singleton, List.not_mem_nil,
      or_false] at hc
    rcases hc with (((hc | hc) | hc) | hc) | hc
    · rcases hc with hc | hc | hc <;> exact Or.inr hc
    · rw [hc]; exact ham
    · exact b1 c hc
    · exact d2 c hc
    · exact b2 c hc

theorem encode_c_instruction_word (p w : List Char) (h : encode_c_instruction p = .ok w) :
    machine_word w ∧ w.take 3 = ['1', '1', '1'] := by
  unfold encode_c_instruction at h
  cases hs : split_c_instruction p with
  | error e => rw [hs] at h; simp at h
  | ok c =>
    rw [hs] at h
    obtain ⟨ham, hv, hj⟩ := split_c_instruction_fields p c hs
    exact generate_c_type_word _ _ _ _ w ham hv hj h

theorem generate_a_type_word (n : Nat) :
    machine_word (generate_a_type n) ∧ (generate_a_type n).take 1 = ['0'] := by
  refine ⟨⟨?_, ?_⟩, rfl⟩
  · simp [generate_a_type, bitset_to_string_length]
  · intro c hc
    simp only [generate_a_type, List.mem_cons] at hc
    rcases hc with hc | hc
    · exact Or.inl hc
    · exact bitset_to_string_bits 15 n c hc

theorem encode_a_instruction_word (g g' : Globals) (p w : List Char)
    (h : encode_a_instruction g p = .ok (w, g')) : ∃ n, w = generate_a_type n := by
  unfold encode_a_instruction at h
  split_ifs at h
  · cases hi : scan_i (p.drop 1) with
    | error e => rw [hi] at h; simp at h
    | ok num =>
      rw [hi] at h
      simp only [Except.ok.injEq, Prod.mk.injEq] at h
      exact ⟨_, h.1.symm⟩
  · cases hi : scan_s (p.drop 1) with
    | error e => rw [hi] at h; simp at h
    | ok name =>
      rw [hi] at h
      simp only at h
      cases hm : map_find g.variable_map name with
      | none =>
        rw [hm] at h
        simp only [Except.ok.injEq, Prod.mk.injEq] at h
        exact ⟨_, h.1.symm⟩
      | some v =>
        rw [hm] at h
        simp only [Except.ok.injEq, Prod.mk.injEq] at h
        exact ⟨_, h.1.symm⟩

theorem encode_instruction_word (g g' : Globals) (p w : List Char)
    (h : encode_instruction g p = .ok (w, g')) :
    machine_word w ∧
      (peek p 0 = '@' → w.take 1 = ['0']) ∧ (peek p 0 ≠ '@' → w.take 3 = ['1', '1', '1']) := by
  unfold encode_instruction at h
  by_cases h0 : peek p 0 = '@'
  · rw [if_pos h0] at h
    obtain ⟨n, rfl⟩ := encode_a_instruction_word g g' p w h
    exact ⟨(generate_a_type_word n).1, fun _ => (generate_a_type_word n).2,
      fun hne => absurd h0 hne⟩
  · rw [if_neg h0] at h
    cases hc : encode_c_instruction p with
    | error e => rw [hc] at h; simp at h
    | ok ins =>
      rw [hc] at h
      simp only [Except.ok.injEq, Prod.mk.injEq] at h
      rw [← h.1]
      exact ⟨(encode_c_instruction_word p ins hc).1, fun he => absurd he h0,
        fun _ => (encode_c_instruction_word p ins hc).2⟩

theorem pass2_line_word (g g' : Globals) (l w : List Char)
    (h : pass2_line g l = .ok (some w, g')) :
    instruction_line l = true ∧ encode_instruction g (skip_spaces l) = .ok (w, g') := by
  cases hi : instruction_line l with
  | false => rw [pass2_line_not_instruction g l hi] at h; simp at h
  | true =>
    rw [pass2_line_instruction g l hi] at h
    cases he : encode_instruction g (skip_spaces l) with
    | error e => rw [he] at h; simp at h
    | ok r =>
      obtain ⟨ins, g1⟩ := r
      rw [he] at h
      simp only [Except.ok.injEq, Prod.mk.injEq, Option.some.injEq] at h
      rw [h.1, h.2]
      exact ⟨rfl, rfl⟩

theorem pass2_words (ls : List (List Char)) :
    ∀ (g g' : Globals) (o o' : List (List Char)), pass2 ls g o = .ok (o', g') →
      (∀ w ∈ o, machine_word w) → ∀ w ∈ o', machine_word w := by
  induction ls with
  | nil =>
    intro g g' o o' h ho
    simp only [pass2, Except.ok.injEq, Prod.mk.injEq] at h
    rw [← h.1]
    exact ho
  | cons l ls ih =>
    intro g g' o o' h ho
    rw [pass2] at h
    cases hl : pass2_line g l with
    | error e => rw [hl] at h; simp at h
    | ok r =>
      obtain ⟨x, g1⟩ := r
      rw [hl] at h
      cases x with
      | none => exact ih g1 g' o o' h ho
      | some x =>
        refine ih g1 g' (o ++ [x]) o' h ?_
        intro w hw
        rcases List.mem_append.1 hw with hw | hw
        · exact ho w hw
        · rw [List.mem_singleton.1 hw]
          exact (encode_instruction_word g g1 _ x (pass2_line_word g g1 l x hl).2).1

/-- C16. Every word in the output of a run that succeeds has 16 bytes, each
`0` or `1`; the word of an address line, an instruction line that starts
with `@`, has the first byte `0`, the word of any other instruction line,
a compute line, starts with `111`, and so the word of an address line is
never the word of a compute line. -/
theorem C16_machine_words (g g' : Globals) (file : List Char) (out : List (List Char))
    (hrun : parse_file g file = .ok (out, g')) :
    (∀ w ∈ out, machine_word w) ∧
    (∀ pre l post, read_lines file = pre ++ l :: post → instruction_line l = true →
      ∃ w, out[(pre.filter instruction_line).length]? = some w ∧
        (peek (skip_spaces l) 0 = '@' → w.take 1 = ['0']) ∧
        (peek (skip_spaces l) 0 ≠ '@' → w.take 3 = ['1', '1', '1'])) ∧
    (∀ pre1 l1 post1 pre2 l2 post2, read_lines file = pre1 ++ l1 :: post1 →
      read_lines file = pre2 ++ l2 :: post2 →
      instruction_line l1 = true → instruction_line l2 = true →
      peek (skip_spaces l1) 0 = '@' → peek (skip_spaces l2) 0 ≠ '@' →
      out[(pre1.filter instruction_line).length]?
        ≠ out[(pre2.filter instruction_line).length]?) := by
  have hline : ∀ pre l post, read_lines file = pre ++ l :: post → instruction_line l = true →
      ∃ w, out[(pre.filter instruction_line).length]? = some w ∧
        (peek (skip_spaces l) 0 = '@' → w.take 1 = ['0']) ∧
        (peek (skip_spaces l) 0 ≠ '@' → w.take 3 = ['1', '1', '1']) := by
    intro pre l post hlines hi
    obtain ⟨o, gj, w, gj', _, h2, h3, _, h5, _, _, _⟩ :=
      parse_file_at_line g g' file pre post l out hlines hrun
    rw [pass2_line_instruction gj l hi] at h3
    cases he : encode_instruction gj (skip_spaces l) with
    | error e => rw [he] at h3; simp at h3
    | ok r =>
      obtain ⟨ins, g1⟩ := r
      rw [he] at h3
      simp only [Except.ok.injEq, Prod.mk.injEq] at h3
      obtain ⟨_, hw1, hw2⟩ := encode_instruction_word gj g1 _ ins he
      exact ⟨ins, by rw [← h2]; exact h5 ins h3.1.symm, hw1, hw2⟩
  refine ⟨?_, hline, ?_⟩
  · unfold parse_file at hrun
    exact pass2_words _ _ _ _ _ hrun (by simp)
  · intro pre1 l1 post1 pre2 l2 post2 hl1 hl2 hi1 hi2 ha hc heq
    obtain ⟨w1, hw1, h10, _⟩ := hline pre1 l1 post1 hl1 hi1
    obtain ⟨w2, hw2, _, h21⟩ := hline pre2 l2 post2 hl2 hi2
    rw [hw1, hw2] at heq
    simp only [Option.some.injEq] at heq
    have a := h10 ha
    have b := h21 hc
    rw [heq] at a
    match w2, a, b with
    | [], a, _ => simp at a
    | x :: t, a, b =>
      simp only [List.take_succ_cons, List.take_zero, List.cons.injEq, and_true] at a
      cases t with
      | nil => simp at b
      | cons y t =>
        simp only [List.take_succ_cons, List.cons.injEq] at b
        rw [a] at b
        exact absurd b.1 (by decide)

set_option maxRecDepth 1000000 in
/-- C16 at the six-line example. -/
theorem C16_machine_words_witness :
    (∀ w ∈ example_words, machine_word w) ∧
    example_words[(["@2\n".toList].filter instruction_line).length]?
      ≠ example_words[(([] : List (List Char)).filter instruction_line).length]? :=
  ⟨(C16_machine_words globals_init globals_init example_source example_words (by decide)).1,
   fun h => (C16_machine_words globals_init globals_init example_source example_words
      (by decide)).2.2 [] "@2\n".toList
        ["D=A\n".toList, "@3\n".toList, "D=D+A\n".toList, "@0\n".toList, "M=D\n".toList]
      ["@2\n".toList] "D=A\n".toList
        ["@3\n".toList, "D=D+A\n".toList, "@0\n".toList, "M=D\n".toList]
      (by decide) (by decide) (by decide) (by decide) (by decide) (by decide) h.symm⟩

/-! ## Two runs in one process -/

theorem pass1_no_labels (ls : List (List Char)) (m : List (List Char × Nat)) (c : Nat)
    (h : ∀ l ∈ ls, peek (skip_spaces l) 0 ≠ '(') : (pass1 ls (m, c)).1 = m := by
  induction ls generalizing c with
  | nil => rfl
  | cons l ls ih =>
    have hl := h l (List.mem_cons_self _ _)
    have hls := fun l' hl' => h l' (List.mem_cons_of_mem _ hl')
    rw [pass1_cons, pass1_line_eq, if_neg hl]
    split_ifs
    · exact ih _ hls
    · exact ih _ hls

theorem pass2_globals_fixed (ls : List (List Char)) (g : Globals)
    (h : ∀ l ∈ ls, ∀ t, symbol_of l = some t → map_find g.variable_map t ≠ none) :
    ∀ (g' : Globals) (o o' : List (List Char)), pass2 ls g o = .ok (o', g') → g' = g := by
  induction ls with
  | nil =>
    intro g' o o' hp
    simp only [pass2, Except.ok.injEq, Prod.mk.injEq] at hp
    exact hp.2.symm
  | cons l ls ih =>
    intro g' o o' hp
    have hls := fun l' hl' => h l' (List.mem_cons_of_mem _ hl')
    rw [pass2] at hp
    cases hl : pass2_line g l with
    | error e => rw [hl] at hp; simp at hp
    | ok r =>
      obtain ⟨x, g1⟩ := r
      have hg1 : g1 = g := by
        cases hs : symbol_of l with
        | none => exact pass2_line_no_symbol g g1 l x hs hl
        | some t =>
          have hk := h l (List.mem_cons_self _ _) t hs
          cases hm : map_find g.variable_map t with
          | none => exact absurd hm hk
          | some v =>
            rw [pass2_line_symbol_known g l t v hs hm] at hl
            simp only [Except.ok.injEq, Prod.mk.injEq] at hl
            exact hl.2.symm
      rw [hl] at hp
      subst hg1
      cases x with
      | none => exact ih hls g' o o' hp
      | some x => exact ih hls g' _ o' hp

/-- C17, amended. When the first source declares no label and refers to no
name but pre-seeded ones, its run from the initial globals leaves them as they
were, and the run on a second source gives what that source gives alone. -/
theorem C17_first_run_without_names (S1 S2 : List Char) (out1 : List (List Char))
    (g1 : Globals) (h1 : parse_file globals_init S1 = .ok (out1, g1))
    (hnolabel : ∀ l ∈ read_lines S1, peek (skip_spaces l) 0 ≠ '(')
    (hpre : ∀ l ∈ read_lines S1, ∀ t, symbol_of l = some t →
      map_find variable_map_init t ≠ none) :
    g1 = globals_init ∧ parse_file g1 S2 = parse_file globals_init S2 := by
  have hg : globals_after_pass1 globals_init S1 = globals_init := by
    unfold globals_after_pass1
    rw [pass1_no_labels _ _ _ hnolabel]
  unfold parse_file at h1
  rw [hg] at h1
  have := pass2_globals_fixed (read_lines S1) globals_init hpre g1 [] out1 h1
  exact ⟨this, by rw [this]⟩

set_option maxRecDepth 100000 in
/-- C17, amended, at the first source `@SP`, `D=A` and the second source
`@y`. -/
theorem C17_first_run_without_names_witness :
    globals_init = globals_init ∧
      parse_file globals_init "@y\n".toList = parse_file globals_init "@y\n".toList :=
  C17_first_run_without_names "@SP\nD=A\n".toList "@y\n".toList
    [generate_a_type 0, "1110110000010000".toList] globals_init (by decide) (by decide)
    (by decide)

set_option maxRecDepth 100000 in
/-- C17 as stated fails: alone, the source `@y` is encoded with the address
16; after a run on the source `@x`, which leaves `x` bound and
`variable_count` at 1, it is encoded with the address 17, and the source
`@x` is encoded without a new allocation. -/
theorem C17_second_run_sees_first :
    parse_file globals_init "@x\n".toList = .ok ([generate_a_type 16], globals_after_x) ∧
    parse_file globals_init "@y\n".toList
      = .ok ([generate_a_type 16],
          { variable_map := insert_or_assign variable_map_init ['y'] 16,
            variable_count := 1 }) ∧
    parse_file globals_after_x "@y\n".toList
      = .ok ([generate_a_type 17],
          { variable_map := insert_or_assign globals_after_x.variable_map ['y'] 17,
            variable_count := 2 }) ∧
    generate_a_type 16 ≠ generate_a_type 17 := by
  decide

/-! ## Injectivity of the compute encoding -/

theorem dest_loop_eq_mask (d : List Char) :
    dest_loop d 3 0 ['0', '0', '0'] = dest_mask (destination_letters d) := by
  have n1 : ¬ (NUL = 'A') := by decide
  have n2 : ¬ (NUL = 'D') := by decide
  have n3 : ¬ (NUL = 'M') := by decide
  match d with
  | [] => simp [dest_loop, peek, destination_letters, dest_mask, n1, n2, n3]
  | [a] =>
    simp only [dest_loop, peek, destination_letters, dest_mask, List.getD_cons_zero,
      List.getD_cons_succ, List.getD_nil, List.take, List.takeWhile, n1, n2, n3, if_false]
    by_cases h1 : a = 'A' <;> by_cases h2 : a = 'D' <;> by_cases h3 : a = 'M' <;>
      simp_all
  | [a, b] =>
    simp only [dest_loop, peek, destination_letters, dest_mask, List.getD_cons_zero,
      List.getD_cons_succ, List.getD_nil, List.take, List.takeWhile, n1, n2, n3, if_false]
    by_cases h1 : a = 'A' <;> by_cases h2 : a = 'D' <;> by_cases h3 : a = 'M' <;>
      by_cases k1 : b = 'A' <;> by_cases k2 : b = 'D' <;> by_cases k3 : b = 'M' <;>
      simp_all
  | a :: b :: c :: r =>
    simp only [dest_loop, peek, destination_letters, dest_mask, List.getD_cons_zero,
      List.getD_cons_succ, List.take, List.takeWhile]
    by_cases h1 : a = 'A' <;> by_cases h2 : a = 'D' <;> by_cases h3 : a = 'M' <;>
      by_cases k1 : b = 'A' <;> by_cases k2 : b = 'D' <;> by_cases k3 : b = 'M' <;>
      by_cases m1 : c = 'A' <;> by_cases m2 : c = 'D' <;> by_cases m3 : c = 'M' <;>
      simp_all

theorem destination_letters_mem (d : List Char) (c : Char)
    (h : c ∈ destination_letters d) : c = 'A' ∨ c = 'D' ∨ c = 'M' := by
  have := List.mem_takeWhile_imp h
  simpa using this

theorem dest_mask_same_letters (l1 l2 : List Char)
    (h1 : ∀ c ∈ l1, c = 'A' ∨ c = 'D' ∨ c = 'M') (h2 : ∀ c ∈ l2, c = 'A' ∨ c = 'D' ∨ c = 'M')
    (h : dest_mask l1 = dest_mask l2) : ∀ c, c ∈ l1 ↔ c ∈ l2 := by
  have bit : ∀ (p q : Prop) [Decidable p] [Decidable q],
      (if p then '1' else '0') = (if q then '1' else '0') → (p ↔ q) := by
    intro p q _ _ hpq
    by_cases hp : p <;> by_cases hq : q <;> simp [hp, hq] at hpq ⊢
  simp only [dest_mask, List.cons.injEq, and_true] at h
  obtain ⟨hA, hD, hM⟩ := h
  have eA := bit _ _ hA
  have eD := bit _ _ hD
  have eM := bit _ _ hM
  intro c
  constructor
  · intro hc
    rcases h1 c hc with r | r | r <;> subst r
    · exact eA.1 hc
    · exact eD.1 hc
    · exact eM.1 hc
  · intro hc
    rcases h2 c hc with r | r | r <;> subst r
    · exact eA.2 hc
    · exact eD.2 hc
    · exact eM.2 hc

set_option maxRecDepth 100000 in
theorem alu_inputs_injective : ∀ e1 ∈ alu_inputs, ∀ e2 ∈ alu_inputs, e1.2 = e2.2 → e1 = e2 := by
  decide

set_option maxRecDepth 100000 in
theorem jump_inputs_injective :
    ∀ e1 ∈ jump_inputs, ∀ e2 ∈ jump_inputs, e1.2 = e2.2 → e1 = e2 := by
  decide

set_option maxRecDepth 100000 in
theorem tables_distinct :
    alu_inputs.length = 18 ∧ jump_inputs.length = 8 ∧
    (alu_inputs.map Prod.fst).Pairwise
      (fun a b => map_equiv (string_comparison 3) a b = false) ∧
    (jump_inputs.map Prod.fst).Pairwise
      (fun a b => map_equiv (string_comparison 3) a b = false) ∧
    (alu_inputs.map Prod.snd).Nodup ∧ (jump_inputs.map Prod.snd).Nodup := by
  decide

theorem word_fields_inj (a1 a2 : Char) (c1 c2 d1 d2 j1 j2 : List Char)
    (hc1 : c1.length = 6) (hc2 : c2.length = 6) (hd1 : d1.length = 3) (hd2 : d2.length = 3)
    (h : ['1', '1', '1'] ++ [a1] ++ c1 ++ d1 ++ j1 = ['1', '1', '1'] ++ [a2] ++ c2 ++ d2 ++ j2) :
    a1 = a2 ∧ c1 = c2 ∧ d1 = d2 ∧ j1 = j2 := by
  obtain ⟨h1, hj⟩ := List.append_inj h (by simp [hc1, hc2, hd1, hd2])
  obtain ⟨h2, hd⟩ := List.append_inj h1 (by simp [hc1, hc2])
  obtain ⟨h3, hc⟩ := List.append_inj h2 (by simp)
  simp only [List.cons_append, List.nil_append, List.cons.injEq, true_and, and_true] at h3
  exact ⟨h3, hc, hd, hj⟩

/-- C20, amended. The map `alu_inputs` holds the 18 keys, no two of them
equivalent for the comparator, with 18 different codes, and `jump_inputs`
the 8 keys with 8 different codes; two calls of `generate_c_type` with
three-byte expression and jump fields that return the same word agree on the
selector byte, on the expression field, on the jump field and on the set of
the destination letters that the loop over `dest_input` reads. -/
theorem C20_injective (am1 am2 : Char) (v1 v2 d1 d2 j1 j2 w : List Char)
    (hv1 : v1.length = 3) (hv2 : v2.length = 3) (hj1 : j1.length = 3) (hj2 : j2.length = 3)
    (h1 : generate_c_type am1 v1 d1 j1 = .ok w) (h2 : generate_c_type am2 v2 d2 j2 = .ok w) :
    (alu_inputs.length = 18 ∧ jump_inputs.length = 8 ∧
      (alu_inputs.map Prod.fst).Pairwise
        (fun a b => map_equiv (string_comparison 3) a b = false) ∧
      (jump_inputs.map Prod.fst).Pairwise
        (fun a b => map_equiv (string_comparison 3) a b = false) ∧
      (alu_inputs.map Prod.snd).Nodup ∧ (jump_inputs.map Prod.snd).Nodup) ∧
    am1 = am2 ∧ v1 = v2 ∧ j1 = j2 ∧
    (∀ c, c ∈ destination_letters d1 ↔ c ∈ destination_letters d2) := by
  refine ⟨tables_distinct, ?_⟩
  obtain ⟨c1, k1, a1, b1, e1⟩ := generate_c_type_inv am1 v1 d1 j1 w h1
  obtain ⟨c2, k2, a2, b2, e2⟩ := generate_c_type_inv am2 v2 d2 j2 w h2
  have m1 := map_at_exact alu_inputs v1 c1 (fun e he => (alu_inputs_keys e he).1) hv1 a1
  have m2 := map_at_exact alu_inputs v2 c2 (fun e he => (alu_inputs_keys e he).1) hv2 a2
  have n1 := map_at_exact jump_inputs j1 k1 (fun e he => (jump_inputs_keys e he).1) hj1 b1
  have n2 := map_at_exact jump_inputs j2 k2 (fun e he => (jump_inputs_keys e he).1) hj2 b2
  have lc1 : c1.length = 6 := (alu_inputs_keys _ m1).2.2
  have lc2 : c2.length = 6 := (alu_inputs_keys _ m2).2.2
  have lk1 : k1.length = 3 := (jump_inputs_keys _ n1).2.2
  have lk2 : k2.length = 3 := (jump_inputs_keys _ n2).2.2
  rw [List.take_of_length_le (le_of_eq lc1), List.take_of_length_le (le_of_eq lk1)] at e1
  rw [List.take_of_length_le (le_of_eq lc2), List.take_of_length_le (le_of_eq lk2)] at e2
  obtain ⟨ham, hc, hd, hk⟩ := word_fields_inj am1 am2 c1 c2 _ _ k1 k2 lc1 lc2
    (dest_loop_bits d1 3 0 ['0', '0', '0'] rfl (by decide)).1
    (dest_loop_bits d2 3 0 ['0', '0', '0'] rfl (by decide)).1 (e1.symm.trans e2)
  have hv := alu_inputs_injective _ m1 _ m2 hc
  have hj := jump_inputs_injective _ n1 _ n2 hk
  simp only [Prod.mk.injEq] at hv hj
  refine ⟨ham, hv.1, hj.1, ?_⟩
  rw [dest_loop_eq_mask, dest_loop_eq_mask] at hd
  exact dest_mask_same_letters _ _ (destination_letters_mem d1) (destination_letters_mem d2) hd

set_option maxRecDepth 100000 in
/-- C20, amended, at two calls for `AD=D+1;JGT` and `DA=D+1;JGT`. -/
theorem C20_injective_witness :
    '0' = '0' ∧ ['D', '+', '1'] = ['D', '+', '1'] ∧ ['J', 'G', 'T'] = ['J', 'G', 'T'] ∧
    (∀ c, c ∈ destination_letters ['A', 'D', ' '] ↔ c ∈ destination_letters ['D', 'A', ' ']) :=
  (C20_injective '0' '0' ['D', '+', '1'] ['D', '+', '1'] ['A', 'D', ' '] ['D', 'A', ' ']
    ['J', 'G', 'T'] ['J', 'G', 'T'] "1110011111110001".toList (by decide) (by decide)
    (by decide) (by decide) (by decide) (by decide)).2

set_option maxRecDepth 100000 in
/-- C20 as stated fails for a destination with a byte that is no letter in
front of a letter: the loop over `dest_input` stops at the space of `A D`, the
calls for the destinations `A D` and `A` return the same word, and the letter
`D` is in one destination only. -/
theorem C20_unread_destination_letter :
    generate_c_type '0' ['D', ' ', ' '] ['A', ' ', 'D'] [' ', ' ', ' ']
      = .ok "1110001100100000".toList ∧
    generate_c_type '0' ['D', ' ', ' '] ['A', ' ', ' '] [' ', ' ', ' ']
      = .ok "1110001100100000".toList ∧
    'D' ∈ ['A', ' ', 'D'] ∧ 'D' ∉ ['A', ' ', ' '] ∧
    encode_c_instruction "A D=D\n".toList = encode_c_instruction "A=D\n".toList := by
  decide

end HackCompiler
